import Mathlib

/-!
# Verification of the AST traversal protocol in `ast/misc.go`

This development shallowly embeds the statement node taxonomy and the
visitor-based `Accept` traversal of the repository's `ast/misc.go`.

Modelling conventions:
* Go pointer-typed struct values become members of one inductive `Node`;
  in-place mutation through a pointer is modelled by returning the final
  value of the receiver's pointee (`AResult.recv`) next to the `Node`
  value returned by `Accept` itself (`AResult.ret`).  On every failure
  path of the Go code `Accept` returns its receiver, so there `ret = recv`;
  on success `ret` is whatever the visitor's `Leave` produced.
* A Go visitor carries its own mutable fields; this is modelled by an
  explicit state type `σ` threaded through `Enter`/`Leave`.
* Go type assertions such as `node.(ExprNode)` panic when they fail; a
  panic is modelled by the `Option.none` result of `accept`.
* Every call of `v.Enter` / `v.Leave` is additionally recorded in an
  observation trace (`AResult.trace`), so that claims about which nodes
  are visited, and in which order, can be stated.
-/

/-- Visitor call events, used as the observation trace of a traversal:
each `v.Enter n` call emits `VEvent.enter n`, each `v.Leave n` call
emits `VEvent.leave n`. -/
inductive VEvent (Node : Type) : Type where
  | enter (n : Node)
  | leave (n : Node)
deriving Repr

/-- The AST node taxonomy of `ast/misc.go`.  The statement variants
(`explainStmt` … `setStmt`) and `variableAssignment` are translated
field-by-field from the Go structs.  The leaf variants `literal`,
`tableRef`, `columnRefExpr`, `patternLikeExpr` and `dmlStmt` are the
out-of-scope collaborator node kinds referenced by the struct fields
(`ExprNode`, `*TableRef`, `*ColumnRefExpr`, `*PatternLikeExpr`,
`DMLNode`).  Modelled from the spec: their own code is not part of this
slice; per spec §1/§6 they implement the same Enter/children/Leave
capability contract, and their internals are opaque to this core, so
they are modelled as childless nodes carrying an opaque payload. -/
inductive Node : Type where
  | literal (val : Int)
  | tableRef (tag : Nat)
  | columnRefExpr (tag : Nat)
  | patternLikeExpr (tag : Nat)
  | dmlStmt (tag : Nat)
  | explainStmt (stmt : Node)
  | prepareStmt (inPrepare : Bool) (name : String) (id : Nat) (sqlStmt : Node)
  | deallocateStmt (name : String) (id : Nat)
  | executeStmt (name : String) (id : Nat) (usingVars : List Node)
  | showStmt (target : Int) (dbName : String) (table : Option Node)
      (column : Option Node) (flag : Int) (full : Bool) (globalScope : Bool)
      (pattern : Option Node) (whereClause : Option Node)
  | beginStmt
  | commitStmt
  | rollbackStmt
  | useStmt (dbName : String)
  | variableAssignment (name : String) (value : Node) (isGlobal : Bool) (isSystem : Bool)
  | setStmt (vars : List Node)
deriving Repr

/-- The Go dynamic type test behind the type assertion `node.(ExprNode)`:
which node kinds implement the `ExprNode` interface. -/
def isExprNode : Node → Bool
  | Node.literal _ => true
  | Node.columnRefExpr _ => true
  | Node.patternLikeExpr _ => true
  | _ => false

/-- The dynamic type test behind the type assertion `node.(DMLNode)`. -/
def isDMLNode : Node → Bool
  | Node.dmlStmt _ => true
  | _ => false

/-- The dynamic type test behind the type assertion `node.(*TableRef)`. -/
def isTableRef : Node → Bool
  | Node.tableRef _ => true
  | _ => false

/-- The dynamic type test behind the type assertion `node.(*ColumnRefExpr)`. -/
def isColumnRefExpr : Node → Bool
  | Node.columnRefExpr _ => true
  | _ => false

/-- The dynamic type test behind the type assertion `node.(*PatternLikeExpr)`. -/
def isPatternLikeExpr : Node → Bool
  | Node.patternLikeExpr _ => true
  | _ => false

/-- The dynamic type test behind the type assertion `node.(*VariableAssignment)`. -/
def isVariableAssignment : Node → Bool
  | Node.variableAssignment _ _ _ _ => true
  | _ => false

/-- The node variants of `ast/misc.go` that declare no children:
`DeallocateStmt`, `BeginStmt`, `CommitStmt`, `RollbackStmt`, `UseStmt`. -/
def isChildless : Node → Bool
  | Node.deallocateStmt _ _ => true
  | Node.beginStmt => true
  | Node.commitStmt => true
  | Node.rollbackStmt => true
  | Node.useStmt _ => true
  | _ => false

/-- The Go `Visitor` interface, with the visitor's own mutable fields
modelled as an explicit state `σ` threaded through both methods. -/
structure Visitor (σ : Type) : Type where
  enter : σ → Node → σ × Bool
  leave : σ → Node → σ × Node × Bool

/-- Result of one `Accept` call:
`st` — visitor state after the call;
`recv` — final value of the receiver's pointee (in-place mutations applied);
`ret` — the `Node` returned by `Accept` (equals `recv` on every failure
path of the Go code; is `Leave`'s result on the success path);
`ok` — the boolean returned by `Accept`;
`trace` — the `Enter`/`Leave` calls made during this `Accept`, in order. -/
structure AResult (σ : Type) : Type where
  st : σ
  recv : Node
  ret : Node
  ok : Bool
  trace : List (VEvent Node)

/-- Result of traversing a slice of children (the `for i, val := range`
loops of `ExecuteStmt.Accept` and `SetStmt.Accept`): final state, final
slice contents, success flag, and the visitor calls made. -/
structure LResult (σ : Type) : Type where
  st : σ
  nodes : List Node
  ok : Bool
  trace : List (VEvent Node)

/-- Result of traversing one optional child field (the
`if ss.X != nil { … }` blocks of `ShowStmt.Accept`). -/
structure OResult (σ : Type) : Type where
  st : σ
  child : Option Node
  ok : Bool
  trace : List (VEvent Node)

/-- The childless `Accept` body shared verbatim by `DeallocateStmt`,
`BeginStmt`, `CommitStmt`, `RollbackStmt` and `UseStmt` in `ast/misc.go`
(`if !v.Enter(n) { return n, false }; return v.Leave(n)`), also used for
the opaque collaborator leaves (spec §4.2, childless instance). -/
def stdEnterLeave {σ : Type} (v : Visitor σ) (n : Node) (s : σ) : Option (AResult σ) :=
  match v.enter s n with
  | (s1, false) => some ⟨s1, n, n, false, [VEvent.enter n]⟩
  | (s1, true) =>
    match v.leave s1 n with
    | (s2, m, b) => some ⟨s2, n, m, b, [VEvent.enter n, VEvent.leave n]⟩

mutual

/-- `Accept` of `ast/misc.go`, one case per node variant, translated
line-by-line from the Go methods (see the module docstring for how
pointers, visitor state, type-assertion panics and the observation
trace are modelled).  The collaborator leaf variants follow the uniform
childless algorithm (`Enter` then `Leave`) of spec §4.2. -/
def accept {σ : Type} (v : Visitor σ) : Node → σ → Option (AResult σ)
  | Node.literal a, s => stdEnterLeave v (Node.literal a) s
  | Node.tableRef a, s => stdEnterLeave v (Node.tableRef a) s
  | Node.columnRefExpr a, s => stdEnterLeave v (Node.columnRefExpr a) s
  | Node.patternLikeExpr a, s => stdEnterLeave v (Node.patternLikeExpr a) s
  | Node.dmlStmt a, s => stdEnterLeave v (Node.dmlStmt a) s
  | Node.explainStmt stmt, s =>
    match v.enter s (Node.explainStmt stmt) with
    | (s1, false) => some ⟨s1, Node.explainStmt stmt, Node.explainStmt stmt, false, [VEvent.enter (Node.explainStmt stmt)]⟩
    | (s1, true) =>
      match accept v stmt s1 with
      | none => none
      | some r =>
        if r.ok then
          if isDMLNode r.ret then
            match v.leave r.st (Node.explainStmt r.ret) with
            | (s2, m, b) =>
              some ⟨s2, Node.explainStmt r.ret, m, b,
                VEvent.enter (Node.explainStmt stmt) :: r.trace ++ [VEvent.leave (Node.explainStmt r.ret)]⟩
          else none
        else
          some ⟨r.st, Node.explainStmt r.recv, Node.explainStmt r.recv, false,
            VEvent.enter (Node.explainStmt stmt) :: r.trace⟩
  | Node.prepareStmt inP name id sqlStmt, s =>
    match v.enter s (Node.prepareStmt inP name id sqlStmt) with
    | (s1, false) => some ⟨s1, Node.prepareStmt inP name id sqlStmt, Node.prepareStmt inP name id sqlStmt, false, [VEvent.enter (Node.prepareStmt inP name id sqlStmt)]⟩
    | (s1, true) =>
      match accept v sqlStmt s1 with
      | none => none
      | some r =>
        if r.ok then
          match v.leave r.st (Node.prepareStmt inP name id r.ret) with
          | (s2, m, b) =>
            some ⟨s2, Node.prepareStmt inP name id r.ret, m, b,
              VEvent.enter (Node.prepareStmt inP name id sqlStmt) :: r.trace ++ [VEvent.leave (Node.prepareStmt inP name id r.ret)]⟩
        else
          some ⟨r.st, Node.prepareStmt inP name id r.recv, Node.prepareStmt inP name id r.recv, false,
            VEvent.enter (Node.prepareStmt inP name id sqlStmt) :: r.trace⟩
  | Node.deallocateStmt name id, s => stdEnterLeave v (Node.deallocateStmt name id) s
  | Node.executeStmt name id usingVars, s =>
    match v.enter s (Node.executeStmt name id usingVars) with
    | (s1, false) => some ⟨s1, Node.executeStmt name id usingVars, Node.executeStmt name id usingVars, false, [VEvent.enter (Node.executeStmt name id usingVars)]⟩
    | (s1, true) =>
      match acceptChildList v isExprNode usingVars s1 with
      | none => none
      | some l =>
        if l.ok then
          match v.leave l.st (Node.executeStmt name id l.nodes) with
          | (s2, m, b) =>
            some ⟨s2, Node.executeStmt name id l.nodes, m, b,
              VEvent.enter (Node.executeStmt name id usingVars) :: l.trace ++ [VEvent.leave (Node.executeStmt name id l.nodes)]⟩
        else
          some ⟨l.st, Node.executeStmt name id l.nodes, Node.executeStmt name id l.nodes, false,
            VEvent.enter (Node.executeStmt name id usingVars) :: l.trace⟩
  | Node.showStmt tgt db tb col flag fl gs pat whr, s =>
    match v.enter s (Node.showStmt tgt db tb col flag fl gs pat whr) with
    | (s1, false) => some ⟨s1, Node.showStmt tgt db tb col flag fl gs pat whr, Node.showStmt tgt db tb col flag fl gs pat whr, false, [VEvent.enter (Node.showStmt tgt db tb col flag fl gs pat whr)]⟩
    | (s1, true) =>
      match acceptOptChild v isTableRef tb s1 with
      | none => none
      | some o1 =>
        if o1.ok then
          match acceptOptChild v isColumnRefExpr col o1.st with
          | none => none
          | some o2 =>
            if o2.ok then
              match acceptOptChild v isPatternLikeExpr pat o2.st with
              | none => none
              | some o3 =>
                if o3.ok then
                  match acceptOptChild v isExprNode whr o3.st with
                  | none => none
                  | some o4 =>
                    if o4.ok then
                      match v.leave o4.st (Node.showStmt tgt db o1.child o2.child flag fl gs o3.child o4.child) with
                      | (s2, m, b) =>
                        some ⟨s2, Node.showStmt tgt db o1.child o2.child flag fl gs o3.child o4.child, m, b,
                          VEvent.enter (Node.showStmt tgt db tb col flag fl gs pat whr) :: (o1.trace ++ o2.trace ++ o3.trace ++ o4.trace) ++ [VEvent.leave (Node.showStmt tgt db o1.child o2.child flag fl gs o3.child o4.child)]⟩
                    else
                      some ⟨o4.st, Node.showStmt tgt db o1.child o2.child flag fl gs o3.child o4.child, Node.showStmt tgt db o1.child o2.child flag fl gs o3.child o4.child, false,
                        VEvent.enter (Node.showStmt tgt db tb col flag fl gs pat whr) :: (o1.trace ++ o2.trace ++ o3.trace ++ o4.trace)⟩
                else
                  some ⟨o3.st, Node.showStmt tgt db o1.child o2.child flag fl gs o3.child whr, Node.showStmt tgt db o1.child o2.child flag fl gs o3.child whr, false,
                    VEvent.enter (Node.showStmt tgt db tb col flag fl gs pat whr) :: (o1.trace ++ o2.trace ++ o3.trace)⟩
            else
              some ⟨o2.st, Node.showStmt tgt db o1.child o2.child flag fl gs pat whr, Node.showStmt tgt db o1.child o2.child flag fl gs pat whr, false,
                VEvent.enter (Node.showStmt tgt db tb col flag fl gs pat whr) :: (o1.trace ++ o2.trace)⟩
        else
          some ⟨o1.st, Node.showStmt tgt db o1.child col flag fl gs pat whr, Node.showStmt tgt db o1.child col flag fl gs pat whr, false,
            VEvent.enter (Node.showStmt tgt db tb col flag fl gs pat whr) :: o1.trace⟩
  | Node.beginStmt, s => stdEnterLeave v Node.beginStmt s
  | Node.commitStmt, s => stdEnterLeave v Node.commitStmt s
  | Node.rollbackStmt, s => stdEnterLeave v Node.rollbackStmt s
  | Node.useStmt db, s => stdEnterLeave v (Node.useStmt db) s
  | Node.variableAssignment name val isG isS, s =>
    match v.enter s (Node.variableAssignment name val isG isS) with
    | (s1, false) => some ⟨s1, Node.variableAssignment name val isG isS, Node.variableAssignment name val isG isS, false, [VEvent.enter (Node.variableAssignment name val isG isS)]⟩
    | (s1, true) =>
      match accept v val s1 with
      | none => none
      | some r =>
        if r.ok then
          if isExprNode r.ret then
            match v.leave r.st (Node.variableAssignment name r.ret isG isS) with
            | (s2, m, b) =>
              some ⟨s2, Node.variableAssignment name r.ret isG isS, m, b,
                VEvent.enter (Node.variableAssignment name val isG isS) :: r.trace ++ [VEvent.leave (Node.variableAssignment name r.ret isG isS)]⟩
          else none
        else
          some ⟨r.st, Node.variableAssignment name r.recv isG isS, Node.variableAssignment name r.recv isG isS, false,
            VEvent.enter (Node.variableAssignment name val isG isS) :: r.trace⟩
  | Node.setStmt vars, s =>
    match v.enter s (Node.setStmt vars) with
    | (s1, false) => some ⟨s1, Node.setStmt vars, Node.setStmt vars, false, [VEvent.enter (Node.setStmt vars)]⟩
    | (s1, true) =>
      match acceptChildList v isVariableAssignment vars s1 with
      | none => none
      | some l =>
        if l.ok then
          match v.leave l.st (Node.setStmt l.nodes) with
          | (s2, m, b) =>
            some ⟨s2, Node.setStmt l.nodes, m, b,
              VEvent.enter (Node.setStmt vars) :: l.trace ++ [VEvent.leave (Node.setStmt l.nodes)]⟩
        else
          some ⟨l.st, Node.setStmt l.nodes, Node.setStmt l.nodes, false,
            VEvent.enter (Node.setStmt vars) :: l.trace⟩

/-- The `for i, val := range slice` child loop shared (textually) by
`ExecuteStmt.Accept` and `SetStmt.Accept`, parameterised by the dynamic
type test of the element type assertion.  On success of element `i` the
slot is overwritten with the returned node (after the type assertion);
on failure the loop returns at once, the remaining slots untouched and
the failing slot holding its receiver's final pointee. -/
def acceptChildList {σ : Type} (v : Visitor σ) (castOk : Node → Bool) :
    List Node → σ → Option (LResult σ)
  | [], s => some ⟨s, [], true, []⟩
  | x :: xs, s =>
    match accept v x s with
    | none => none
    | some r =>
      if r.ok then
        if castOk r.ret then
          match acceptChildList v castOk xs r.st with
          | none => none
          | some l => some ⟨l.st, r.ret :: l.nodes, l.ok, r.trace ++ l.trace⟩
        else none
      else some ⟨r.st, r.recv :: xs, false, r.trace⟩

/-- One `if field != nil { node, ok := field.Accept(v); … }` block of
`ShowStmt.Accept`, parameterised by the dynamic type test of the field's
type assertion.  An absent (`nil`) field is skipped entirely, emitting
no visitor calls. -/
def acceptOptChild {σ : Type} (v : Visitor σ) (castOk : Node → Bool) :
    Option Node → σ → Option (OResult σ)
  | none, s => some ⟨s, none, true, []⟩
  | some c, s =>
    match accept v c s with
    | none => none
    | some r =>
      if r.ok then
        if castOk r.ret then some ⟨r.st, some r.ret, true, r.trace⟩
        else none
      else some ⟨r.st, some r.recv, false, r.trace⟩

end

/-!
## Spec-side definitions

The definitions below are written from the specification's words, to be
compared with the behaviour of `accept`:
* `idTrace` lists the `Enter`/`Leave` calls a complete traversal must
  make, with each node's declared children in the documented order of
  spec §3 (for `ShowStmt`: Table, Column, Pattern, Where; for
  `ExecuteStmt`/`SetStmt`: sequence order) and absent optional children
  skipped.
* `wellTyped` states the producer contract of spec §6: every field
  holds a node of the field's declared capability type.
-/

mutual

/-- Spec-side: the full pre/post-order visitation trace of a tree, with
declared children in the documented order and `nil` fields skipped. -/
def idTrace : Node → List (VEvent Node)
  | Node.literal a => [VEvent.enter (Node.literal a), VEvent.leave (Node.literal a)]
  | Node.tableRef a => [VEvent.enter (Node.tableRef a), VEvent.leave (Node.tableRef a)]
  | Node.columnRefExpr a => [VEvent.enter (Node.columnRefExpr a), VEvent.leave (Node.columnRefExpr a)]
  | Node.patternLikeExpr a => [VEvent.enter (Node.patternLikeExpr a), VEvent.leave (Node.patternLikeExpr a)]
  | Node.dmlStmt a => [VEvent.enter (Node.dmlStmt a), VEvent.leave (Node.dmlStmt a)]
  | Node.explainStmt stmt =>
    VEvent.enter (Node.explainStmt stmt) :: idTrace stmt ++ [VEvent.leave (Node.explainStmt stmt)]
  | Node.prepareStmt inP name id sqlStmt =>
    VEvent.enter (Node.prepareStmt inP name id sqlStmt) :: idTrace sqlStmt ++ [VEvent.leave (Node.prepareStmt inP name id sqlStmt)]
  | Node.deallocateStmt name id => [VEvent.enter (Node.deallocateStmt name id), VEvent.leave (Node.deallocateStmt name id)]
  | Node.executeStmt name id usingVars =>
    VEvent.enter (Node.executeStmt name id usingVars) :: listTrace usingVars ++ [VEvent.leave (Node.executeStmt name id usingVars)]
  | Node.showStmt tgt db tb col flag fl gs pat whr =>
    VEvent.enter (Node.showStmt tgt db tb col flag fl gs pat whr) ::
      (optTrace tb ++ optTrace col ++ optTrace pat ++ optTrace whr) ++
      [VEvent.leave (Node.showStmt tgt db tb col flag fl gs pat whr)]
  | Node.beginStmt => [VEvent.enter Node.beginStmt, VEvent.leave Node.beginStmt]
  | Node.commitStmt => [VEvent.enter Node.commitStmt, VEvent.leave Node.commitStmt]
  | Node.rollbackStmt => [VEvent.enter Node.rollbackStmt, VEvent.leave Node.rollbackStmt]
  | Node.useStmt db => [VEvent.enter (Node.useStmt db), VEvent.leave (Node.useStmt db)]
  | Node.variableAssignment name val isG isS =>
    VEvent.enter (Node.variableAssignment name val isG isS) :: idTrace val ++ [VEvent.leave (Node.variableAssignment name val isG isS)]
  | Node.setStmt vars =>
    VEvent.enter (Node.setStmt vars) :: listTrace vars ++ [VEvent.leave (Node.setStmt vars)]

/-- Spec-side: visitation trace of an ordered child sequence. -/
def listTrace : List Node → List (VEvent Node)
  | [] => []
  | x :: xs => idTrace x ++ listTrace xs

/-- Spec-side: visitation trace of an optional child. -/
def optTrace : Option Node → List (VEvent Node)
  | none => []
  | some c => idTrace c

end

mutual

/-- Spec-side producer contract (spec §6): every child field holds a
node of the field's declared capability type, recursively.  In the Go
source this is enforced by the static types of the struct fields. -/
def wellTyped : Node → Bool
  | Node.literal _ => true
  | Node.tableRef _ => true
  | Node.columnRefExpr _ => true
  | Node.patternLikeExpr _ => true
  | Node.dmlStmt _ => true
  | Node.explainStmt stmt => isDMLNode stmt && wellTyped stmt
  | Node.prepareStmt _ _ _ sqlStmt => wellTyped sqlStmt
  | Node.deallocateStmt _ _ => true
  | Node.executeStmt _ _ usingVars => wtList isExprNode usingVars
  | Node.showStmt _ _ tb col _ _ _ pat whr =>
    wtOpt isTableRef tb && wtOpt isColumnRefExpr col &&
      wtOpt isPatternLikeExpr pat && wtOpt isExprNode whr
  | Node.beginStmt => true
  | Node.commitStmt => true
  | Node.rollbackStmt => true
  | Node.useStmt _ => true
  | Node.variableAssignment _ val _ _ => isExprNode val && wellTyped val
  | Node.setStmt vars => wtList isVariableAssignment vars

/-- Spec-side: every element of a child sequence has the declared
capability and is itself well-typed. -/
def wtList (ck : Node → Bool) : List Node → Bool
  | [] => true
  | x :: xs => ck x && wellTyped x && wtList ck xs

/-- Spec-side: an optional child, when present, has the declared
capability and is itself well-typed. -/
def wtOpt (ck : Node → Bool) : Option Node → Bool
  | none => true
  | some c => ck c && wellTyped c

end

/-- State transition of one visitor call: how the visitor's state moves
when the call of the given event is made. -/
def stepState {σ : Type} (v : Visitor σ) (s : σ) : VEvent Node → σ
  | VEvent.enter m => (v.enter s m).1
  | VEvent.leave m => (v.leave s m).1

/-- The visitor state reached after making the calls of a trace in order. -/
def runState {σ : Type} (v : Visitor σ) (s : σ) (t : List (VEvent Node)) : σ :=
  t.foldl (stepState v) s

/-- The identity visitor: `Enter` always permits descent, `Leave`
returns the node unchanged and continues; no internal state. -/
def idVisitor : Visitor Unit where
  enter := fun s _ => (s, true)
  leave := fun s n => (s, n, true)

/-- Is the event an `Enter` call on a node implementing `ExprNode`? -/
def isExprEnter : VEvent Node → Bool
  | VEvent.enter m => isExprNode m
  | VEvent.leave _ => false


/-!
## Basic lemmas
-/

theorem runState_append {σ : Type} (v : Visitor σ) (s : σ)
    (t1 t2 : List (VEvent Node)) :
    runState v s (t1 ++ t2) = runState v (runState v s t1) t2 := by
  simp [runState, List.foldl_append]

theorem wtList_mem (ck : Node → Bool) :
    ∀ xs : List Node, wtList ck xs = true →
      ∀ x ∈ xs, ck x = true ∧ wellTyped x = true := by
  intro xs
  induction xs with
  | nil =>
    intro _ x hx
    cases hx
  | cons y ys ih =>
    intro h x hx
    rw [wtList, Bool.and_eq_true, Bool.and_eq_true] at h
    rw [List.mem_cons] at hx
    rcases hx with hx | hx
    · subst hx
      exact ⟨h.1.1, h.1.2⟩
    · exact ih h.2 x hx

/-- With an identity-shaped visitor the shared childless `Accept` body
enters and leaves the node and returns it unchanged. -/
theorem stdEnterLeave_id {σ : Type} (v : Visitor σ)
    (hE : ∀ s n, (v.enter s n).2 = true)
    (hL : ∀ s n, (v.leave s n).2 = (n, true))
    (n : Node) (s : σ)
    (ht : idTrace n = [VEvent.enter n, VEvent.leave n]) :
    stdEnterLeave v n s = some ⟨runState v s (idTrace n), n, n, true, idTrace n⟩ := by
  rcases hv : v.enter s n with ⟨s1, b⟩
  have hb := hE s n
  rw [hv] at hb
  subst hb
  rcases hl : v.leave s1 n with ⟨s2, m, b2⟩
  have h2 := hL s1 n
  rw [hl] at h2
  rw [Prod.mk.injEq] at h2
  obtain ⟨hm, hb2⟩ := h2
  subst hm; subst hb2
  simp [stdEnterLeave, hv, hl, ht, runState, stepState]

/-- With an identity-shaped visitor the child-sequence loop traverses
every element in order and leaves the slice unchanged. -/
theorem acceptChildList_id {σ : Type} (v : Visitor σ) (ck : Node → Bool) :
    ∀ (xs : List Node) (s : σ),
      (∀ x ∈ xs, ∀ s' : σ,
        accept v x s' = some ⟨runState v s' (idTrace x), x, x, true, idTrace x⟩) →
      (∀ x ∈ xs, ck x = true) →
      acceptChildList v ck xs s =
        some ⟨runState v s (listTrace xs), xs, true, listTrace xs⟩ := by
  intro xs
  induction xs with
  | nil =>
    intro s _ _
    simp [acceptChildList, listTrace, runState]
  | cons x xs ih =>
    intro s hih hck
    have hx := hih x (List.mem_cons_self x xs) s
    have hcast : ck x = true := hck x (List.mem_cons_self x xs)
    have hrest := ih (runState v s (idTrace x))
      (fun y hy s' => hih y (List.mem_cons_of_mem x hy) s')
      (fun y hy => hck y (List.mem_cons_of_mem x hy))
    simp only [acceptChildList, hx, hcast, hrest, listTrace]
    simp [runState_append]

/-- With an identity-shaped visitor an optional child field is left
unchanged; an absent field contributes nothing. -/
theorem acceptOptChild_id {σ : Type} (v : Visitor σ) (ck : Node → Bool) :
    ∀ (o : Option Node) (s : σ),
      (∀ c, o = some c → ∀ s' : σ,
        accept v c s' = some ⟨runState v s' (idTrace c), c, c, true, idTrace c⟩) →
      (∀ c, o = some c → ck c = true) →
      acceptOptChild v ck o s =
        some ⟨runState v s (optTrace o), o, true, optTrace o⟩ := by
  intro o s hih hck
  cases o with
  | none => simp [acceptOptChild, optTrace, runState]
  | some c =>
    have hc := hih c rfl s
    have hcast := hck c rfl
    simp only [acceptOptChild, hc, hcast, optTrace]
    simp

theorem wtOpt_some (ck : Node → Bool) (o : Option Node) (h : wtOpt ck o = true) :
    ∀ c, o = some c → ck c = true ∧ wellTyped c = true := by
  intro c hc
  subst hc
  rw [wtOpt, Bool.and_eq_true] at h
  exact h

theorem runState_nil {σ : Type} (v : Visitor σ) (s : σ) : runState v s [] = s := rfl

theorem runState_cons {σ : Type} (v : Visitor σ) (s : σ) (e : VEvent Node)
    (t : List (VEvent Node)) :
    runState v s (e :: t) = runState v (stepState v s e) t := rfl

/-- Identity-shaped visitors (those whose `Enter` always permits descent
and whose `Leave` always returns the visited node with `true`, whatever
they do to their internal state): on a well-typed tree, `Accept`
traverses the entire tree in the documented order (`idTrace`), returns
the tree unchanged, and reports success. -/
theorem accept_id_aux {σ : Type} (v : Visitor σ)
    (hE : ∀ s n, (v.enter s n).2 = true)
    (hL : ∀ s n, (v.leave s n).2 = (n, true)) :
    ∀ (k : Nat) (n : Node), sizeOf n ≤ k → ∀ s : σ, wellTyped n = true →
      accept v n s = some ⟨runState v s (idTrace n), n, n, true, idTrace n⟩ := by
  intro k
  induction k with
  | zero =>
    intro n hn
    exact absurd hn (by cases n <;> simp)
  | succ k ih =>
    intro n hn s hwt
    cases n with
    | literal a => exact stdEnterLeave_id v hE hL _ s rfl
    | tableRef a => exact stdEnterLeave_id v hE hL _ s rfl
    | columnRefExpr a => exact stdEnterLeave_id v hE hL _ s rfl
    | patternLikeExpr a => exact stdEnterLeave_id v hE hL _ s rfl
    | dmlStmt a => exact stdEnterLeave_id v hE hL _ s rfl
    | deallocateStmt nm i => exact stdEnterLeave_id v hE hL _ s rfl
    | beginStmt => exact stdEnterLeave_id v hE hL _ s rfl
    | commitStmt => exact stdEnterLeave_id v hE hL _ s rfl
    | rollbackStmt => exact stdEnterLeave_id v hE hL _ s rfl
    | useStmt db => exact stdEnterLeave_id v hE hL _ s rfl
    | explainStmt d =>
      have hd : sizeOf d ≤ k := by simp at hn; omega
      rw [wellTyped, Bool.and_eq_true] at hwt
      rcases hv : v.enter s (Node.explainStmt d) with ⟨s1, b⟩
      have hb := hE s (Node.explainStmt d)
      rw [hv] at hb
      subst hb
      have hdrun := ih d hd s1 hwt.2
      rcases hl : v.leave (runState v s1 (idTrace d)) (Node.explainStmt d) with ⟨s2, m, b2⟩
      have h2 := hL (runState v s1 (idTrace d)) (Node.explainStmt d)
      rw [hl, Prod.mk.injEq] at h2
      obtain ⟨hm, hb2⟩ := h2
      subst hm
      subst hb2
      have hstate : runState v s (idTrace (Node.explainStmt d)) = s2 := by
        simp only [idTrace, runState_cons, runState_append, runState_nil, stepState, hv, hl]
      simp only [accept, hv, hdrun, hwt.1, hl, idTrace, hstate]
      simp [hstate.symm]
      simp only [idTrace, runState_cons, runState_append, runState_nil, stepState, hv, hl]
    | prepareStmt inP nm i d =>
      have hd : sizeOf d ≤ k := by simp at hn; omega
      rw [wellTyped] at hwt
      rcases hv : v.enter s (Node.prepareStmt inP nm i d) with ⟨s1, b⟩
      have hb := hE s (Node.prepareStmt inP nm i d)
      rw [hv] at hb
      subst hb
      have hdrun := ih d hd s1 hwt
      rcases hl : v.leave (runState v s1 (idTrace d)) (Node.prepareStmt inP nm i d) with ⟨s2, m, b2⟩
      have h2 := hL (runState v s1 (idTrace d)) (Node.prepareStmt inP nm i d)
      rw [hl, Prod.mk.injEq] at h2
      obtain ⟨hm, hb2⟩ := h2
      subst hm
      subst hb2
      simp only [accept, hv, hdrun, hl, idTrace]
      simp only [idTrace, runState_cons, runState_append, runState_nil, stepState, hv, hl]
      simp
    | executeStmt nm i vs =>
      have hmem : ∀ x ∈ vs, sizeOf x ≤ k := by
        intro x hx
        have h2 := List.sizeOf_lt_of_mem hx
        simp at hn
        omega
      rw [wellTyped] at hwt
      have hwt2 := wtList_mem isExprNode vs hwt
      rcases hv : v.enter s (Node.executeStmt nm i vs) with ⟨s1, b⟩
      have hb := hE s (Node.executeStmt nm i vs)
      rw [hv] at hb
      subst hb
      have hlist := acceptChildList_id v isExprNode vs s1
        (fun x hx s' => ih x (hmem x hx) s' (hwt2 x hx).2)
        (fun x hx => (hwt2 x hx).1)
      rcases hl : v.leave (runState v s1 (listTrace vs)) (Node.executeStmt nm i vs) with ⟨s2, m, b2⟩
      have h2 := hL (runState v s1 (listTrace vs)) (Node.executeStmt nm i vs)
      rw [hl, Prod.mk.injEq] at h2
      obtain ⟨hm, hb2⟩ := h2
      subst hm
      subst hb2
      simp only [accept, hv, hlist, hl, idTrace]
      simp only [runState_cons, runState_append, runState_nil, stepState, hv, hl]
      simp
    | setStmt vs =>
      have hmem : ∀ x ∈ vs, sizeOf x ≤ k := by
        intro x hx
        have h2 := List.sizeOf_lt_of_mem hx
        simp at hn
        omega
      rw [wellTyped] at hwt
      have hwt2 := wtList_mem isVariableAssignment vs hwt
      rcases hv : v.enter s (Node.setStmt vs) with ⟨s1, b⟩
      have hb := hE s (Node.setStmt vs)
      rw [hv] at hb
      subst hb
      have hlist := acceptChildList_id v isVariableAssignment vs s1
        (fun x hx s' => ih x (hmem x hx) s' (hwt2 x hx).2)
        (fun x hx => (hwt2 x hx).1)
      rcases hl : v.leave (runState v s1 (listTrace vs)) (Node.setStmt vs) with ⟨s2, m, b2⟩
      have h2 := hL (runState v s1 (listTrace vs)) (Node.setStmt vs)
      rw [hl, Prod.mk.injEq] at h2
      obtain ⟨hm, hb2⟩ := h2
      subst hm
      subst hb2
      simp only [accept, hv, hlist, hl, idTrace]
      simp only [runState_cons, runState_append, runState_nil, stepState, hv, hl]
      simp
    | variableAssignment nm d isG isS =>
      have hd : sizeOf d ≤ k := by simp at hn; omega
      rw [wellTyped, Bool.and_eq_true] at hwt
      rcases hv : v.enter s (Node.variableAssignment nm d isG isS) with ⟨s1, b⟩
      have hb := hE s (Node.variableAssignment nm d isG isS)
      rw [hv] at hb
      subst hb
      have hdrun := ih d hd s1 hwt.2
      rcases hl : v.leave (runState v s1 (idTrace d)) (Node.variableAssignment nm d isG isS) with ⟨s2, m, b2⟩
      have h2 := hL (runState v s1 (idTrace d)) (Node.variableAssignment nm d isG isS)
      rw [hl, Prod.mk.injEq] at h2
      obtain ⟨hm, hb2⟩ := h2
      subst hm
      subst hb2
      simp only [accept, hv, hdrun, hwt.1, hl, idTrace]
      simp only [runState_cons, runState_append, runState_nil, stepState, hv, hl]
      simp
    | showStmt tgt db tb col flag fl gs pat whr =>
      have hsz : ∀ (o : Option Node), (o = tb ∨ o = col ∨ o = pat ∨ o = whr) →
          ∀ c, o = some c → sizeOf c ≤ k := by
        intro o ho c hc
        subst hc
        simp at hn
        rcases ho with h | h | h | h <;> rw [← h] at hn <;> simp at hn <;> omega
      rw [wellTyped, Bool.and_eq_true, Bool.and_eq_true, Bool.and_eq_true] at hwt
      obtain ⟨⟨⟨h1, h2⟩, h3⟩, h4⟩ := hwt
      rcases hv : v.enter s (Node.showStmt tgt db tb col flag fl gs pat whr) with ⟨s1, b⟩
      have hb := hE s (Node.showStmt tgt db tb col flag fl gs pat whr)
      rw [hv] at hb
      subst hb
      have ho1 := acceptOptChild_id v isTableRef tb s1
        (fun c hc s' => ih c (hsz tb (Or.inl rfl) c hc) s' (wtOpt_some _ _ h1 c hc).2)
        (fun c hc => (wtOpt_some _ _ h1 c hc).1)
      have ho2 := acceptOptChild_id v isColumnRefExpr col (runState v s1 (optTrace tb))
        (fun c hc s' => ih c (hsz col (Or.inr (Or.inl rfl)) c hc) s' (wtOpt_some _ _ h2 c hc).2)
        (fun c hc => (wtOpt_some _ _ h2 c hc).1)
      have ho3 := acceptOptChild_id v isPatternLikeExpr pat
        (runState v (runState v s1 (optTrace tb)) (optTrace col))
        (fun c hc s' => ih c (hsz pat (Or.inr (Or.inr (Or.inl rfl))) c hc) s' (wtOpt_some _ _ h3 c hc).2)
        (fun c hc => (wtOpt_some _ _ h3 c hc).1)
      have ho4 := acceptOptChild_id v isExprNode whr
        (runState v (runState v (runState v s1 (optTrace tb)) (optTrace col)) (optTrace pat))
        (fun c hc s' => ih c (hsz whr (Or.inr (Or.inr (Or.inr rfl))) c hc) s' (wtOpt_some _ _ h4 c hc).2)
        (fun c hc => (wtOpt_some _ _ h4 c hc).1)
      rcases hl : v.leave
          (runState v (runState v (runState v (runState v s1 (optTrace tb)) (optTrace col)) (optTrace pat)) (optTrace whr))
          (Node.showStmt tgt db tb col flag fl gs pat whr) with ⟨s2, m, b2⟩
      have hL2 := hL
          (runState v (runState v (runState v (runState v s1 (optTrace tb)) (optTrace col)) (optTrace pat)) (optTrace whr))
          (Node.showStmt tgt db tb col flag fl gs pat whr)
      rw [hl, Prod.mk.injEq] at hL2
      obtain ⟨hm, hb2⟩ := hL2
      subst hm
      subst hb2
      simp only [accept, hv, ho1, ho2, ho3, ho4, hl, idTrace]
      simp only [runState_cons, runState_append, runState_nil, stepState, hv, hl]
      simp

/-- `accept_id_aux` without the explicit fuel bound. -/
theorem accept_id {σ : Type} (v : Visitor σ)
    (hE : ∀ s n, (v.enter s n).2 = true)
    (hL : ∀ s n, (v.leave s n).2 = (n, true))
    (n : Node) (s : σ) (hwt : wellTyped n = true) :
    accept v n s = some ⟨runState v s (idTrace n), n, n, true, idTrace n⟩ :=
  accept_id_aux v hE hL (sizeOf n) n le_rfl s hwt

/-- If `Enter` refuses the node itself, `Accept` returns the receiver
unchanged with `false`, having performed no other visitor call. -/
theorem accept_enter_false {σ : Type} (v : Visitor σ) (n : Node) (s s1 : σ)
    (h : v.enter s n = (s1, false)) :
    accept v n s = some ⟨s1, n, n, false, [VEvent.enter n]⟩ := by
  cases n <;> simp [accept, stdEnterLeave, h]

/-- A childless statement whose `Enter` permits descent is immediately
`Leave`d, with no other visitor call in between, and `Leave`'s result is
returned as is. -/
theorem accept_childless {σ : Type} (v : Visitor σ) (n : Node)
    (h : isChildless n = true) (s s1 : σ) (henter : v.enter s n = (s1, true)) :
    ∃ s2 m b, v.leave s1 n = (s2, m, b) ∧
      accept v n s = some ⟨s2, n, m, b, [VEvent.enter n, VEvent.leave n]⟩ := by
  cases n <;> simp only [isChildless] at h <;> try cases h
  all_goals
    rcases hl : v.leave s1 _ with ⟨s2, m, b⟩
  all_goals
    exact ⟨s2, m, b, rfl, by simp [accept, stdEnterLeave, henter, hl]⟩

/-- Return-path analysis of the shared childless `Accept` body: the
returned node is the receiver, unless it came out of `Leave`. -/
theorem stdEnterLeave_cases {σ : Type} (v : Visitor σ) (n : Node) (s : σ)
    (r : AResult σ) (h : stdEnterLeave v n s = some r) :
    r.ret = r.recv ∨
      ∃ s1 t, r.trace = t ++ [VEvent.leave r.recv] ∧
        v.leave s1 r.recv = (r.st, r.ret, r.ok) := by
  unfold stdEnterLeave at h
  rcases hv : v.enter s n with ⟨s1, b⟩
  rw [hv] at h
  cases b with
  | false =>
    simp only [] at h
    injection h with h
    subst h
    exact Or.inl rfl
  | true =>
    rcases hl : v.leave s1 n with ⟨s2, m, b2⟩
    simp only [hl] at h
    injection h with h
    subst h
    exact Or.inr ⟨s1, [VEvent.enter n], rfl, hl⟩

/-- The child-sequence loop on `pre ++ c :: post`, when every element of
`pre` succeeds and `c`'s traversal fails: the loop stops at `c`, commits
the replacements of `pre`, leaves `post` untouched and unvisited, and
reports failure. -/
theorem acceptChildList_abort {σ : Type} (v : Visitor σ) (ck : Node → Bool) :
    ∀ (pre : List Node) (c : Node) (post : List Node) (s : σ)
      (l : LResult σ) (r : AResult σ),
      acceptChildList v ck pre s = some l → l.ok = true →
      accept v c l.st = some r → r.ok = false →
      acceptChildList v ck (pre ++ c :: post) s =
        some ⟨r.st, l.nodes ++ r.recv :: post, false, l.trace ++ r.trace⟩ := by
  intro pre
  induction pre with
  | nil =>
    intro c post s l r hl hok hc hro
    simp only [acceptChildList] at hl
    injection hl with hl
    subst hl
    simp only [List.nil_append, acceptChildList, hc, hro]
    simp
  | cons x xs ihx =>
    intro c post s l r hl hok hc hro
    simp only [acceptChildList] at hl
    rcases hax : accept v x s with _ | r0
    all_goals rw [hax] at hl
    · cases hl
    · simp only at hl
      cases hro0 : r0.ok with
      | false =>
        simp only [hro0, Bool.false_eq_true, if_false] at hl
        injection hl with hl
        subst hl
        simp at hok
      | true =>
        simp only [hro0, if_true] at hl
        cases hcast : ck r0.ret with
        | false =>
          simp only [hcast, Bool.false_eq_true, if_false] at hl
          cases hl
        | true =>
          simp only [hcast, if_true] at hl
          rcases hcl : acceptChildList v ck xs r0.st with _ | l1
          all_goals rw [hcl] at hl
          · cases hl
          · simp only at hl
            injection hl with hl
            subst hl
            simp only at hok hc
            have := ihx c post r0.st l1 r hcl hok hc hro
            simp only [List.cons_append, acceptChildList, hax, hro0, hcast, if_true,
              List.append_eq]
            rw [this]
            simp

/-- `ExecuteStmt.Accept` when the prefix `pre` of `usingParams` succeeds
and the traversal of the next parameter `c` fails: the statement's
`Accept` returns its receiver with `false`; the receiver's slice keeps
the committed replacements of `pre` and the untouched suffix `post`, the
trace shows that nothing after `c` was visited and that `Leave` was not
called on the statement. -/
theorem executeStmt_abort {σ : Type} (v : Visitor σ) (s s1 : σ)
    (nm : String) (i : Nat) (pre : List Node) (c : Node) (post : List Node)
    (l : LResult σ) (r : AResult σ)
    (henter : v.enter s (Node.executeStmt nm i (pre ++ c :: post)) = (s1, true))
    (hpre : acceptChildList v isExprNode pre s1 = some l) (hok : l.ok = true)
    (hc : accept v c l.st = some r) (hro : r.ok = false) :
    accept v (Node.executeStmt nm i (pre ++ c :: post)) s =
      some ⟨r.st, Node.executeStmt nm i (l.nodes ++ r.recv :: post),
        Node.executeStmt nm i (l.nodes ++ r.recv :: post), false,
        VEvent.enter (Node.executeStmt nm i (pre ++ c :: post)) :: (l.trace ++ r.trace)⟩ := by
  have hfull := acceptChildList_abort v isExprNode pre c post s1 l r hpre hok hc hro
  simp only [accept, henter, hfull]
  simp

/-- `SetStmt.Accept` under the same circumstances as
`executeStmt_abort`: the committed prefix stays, the suffix is never
visited, `Leave` on the `SetStmt` is never called, and the result is
`(receiver, false)`. -/
theorem setStmt_abort {σ : Type} (v : Visitor σ) (s s1 : σ)
    (pre : List Node) (c : Node) (post : List Node)
    (l : LResult σ) (r : AResult σ)
    (henter : v.enter s (Node.setStmt (pre ++ c :: post)) = (s1, true))
    (hpre : acceptChildList v isVariableAssignment pre s1 = some l) (hok : l.ok = true)
    (hc : accept v c l.st = some r) (hro : r.ok = false) :
    accept v (Node.setStmt (pre ++ c :: post)) s =
      some ⟨r.st, Node.setStmt (l.nodes ++ r.recv :: post),
        Node.setStmt (l.nodes ++ r.recv :: post), false,
        VEvent.enter (Node.setStmt (pre ++ c :: post)) :: (l.trace ++ r.trace)⟩ := by
  have hfull := acceptChildList_abort v isVariableAssignment pre c post s1 l r hpre hok hc hro
  simp only [accept, henter, hfull]
  simp

/-- `ShowStmt.Accept` when the `Table` child succeeds (possibly
replaced) and the `Column` child's traversal fails: the already
committed `Table` replacement stays in the returned receiver, `Pattern`
and `Where` are never visited, `Leave` on the `ShowStmt` is never
called, and the result is `(receiver, false)`. -/
theorem showStmt_abort {σ : Type} (v : Visitor σ) (s s1 : σ)
    (tgt : Int) (db : String) (tbc colc : Node) (flag : Int) (fl gs : Bool)
    (pat whr : Option Node) (r1 r2 : AResult σ)
    (henter : v.enter s (Node.showStmt tgt db (some tbc) (some colc) flag fl gs pat whr) = (s1, true))
    (h1 : accept v tbc s1 = some r1) (h1ok : r1.ok = true)
    (h1cast : isTableRef r1.ret = true)
    (h2 : accept v colc r1.st = some r2) (h2ok : r2.ok = false) :
    accept v (Node.showStmt tgt db (some tbc) (some colc) flag fl gs pat whr) s =
      some ⟨r2.st, Node.showStmt tgt db (some r1.ret) (some r2.recv) flag fl gs pat whr,
        Node.showStmt tgt db (some r1.ret) (some r2.recv) flag fl gs pat whr, false,
        VEvent.enter (Node.showStmt tgt db (some tbc) (some colc) flag fl gs pat whr) ::
          (r1.trace ++ r2.trace)⟩ := by
  have ho1 : acceptOptChild v isTableRef (some tbc) s1 =
      some ⟨r1.st, some r1.ret, true, r1.trace⟩ := by
    simp only [acceptOptChild, h1, h1ok, h1cast, if_true]
  have ho2 : acceptOptChild v isColumnRefExpr (some colc) r1.st =
      some ⟨r2.st, some r2.recv, false, r2.trace⟩ := by
    simp only [acceptOptChild, h2, h2ok, Bool.false_eq_true, if_false]
  simp only [accept, henter, ho1, ho2]
  simp

/-- Return-path analysis of `Accept`, all node variants: either the
returned node is the receiver (every abort that originates from `Enter`
on the node or from a failed child traversal), or the result — node,
flag and final state alike — came out of the single `Leave` call on the
receiver, which is then the last visitor call of the traversal. -/
theorem accept_return_path {σ : Type} (v : Visitor σ) (n : Node) (s : σ)
    (r : AResult σ) (h : accept v n s = some r) :
    r.ret = r.recv ∨
      ∃ s1 t, r.trace = t ++ [VEvent.leave r.recv] ∧
        v.leave s1 r.recv = (r.st, r.ret, r.ok) := by
  cases n with
  | literal a => exact stdEnterLeave_cases v (Node.literal a) s r h
  | tableRef a => exact stdEnterLeave_cases v (Node.tableRef a) s r h
  | columnRefExpr a => exact stdEnterLeave_cases v (Node.columnRefExpr a) s r h
  | patternLikeExpr a => exact stdEnterLeave_cases v (Node.patternLikeExpr a) s r h
  | dmlStmt a => exact stdEnterLeave_cases v (Node.dmlStmt a) s r h
  | deallocateStmt nm i => exact stdEnterLeave_cases v (Node.deallocateStmt nm i) s r h
  | beginStmt => exact stdEnterLeave_cases v Node.beginStmt s r h
  | commitStmt => exact stdEnterLeave_cases v Node.commitStmt s r h
  | rollbackStmt => exact stdEnterLeave_cases v Node.rollbackStmt s r h
  | useStmt db => exact stdEnterLeave_cases v (Node.useStmt db) s r h
  | explainStmt d =>
    simp only [accept] at h
    rcases hv : v.enter s (Node.explainStmt d) with ⟨s1, b⟩
    rw [hv] at h
    cases b with
    | false =>
      simp only [] at h
      injection h with h
      subst h
      exact Or.inl rfl
    | true =>
      simp only [] at h
      rcases had : accept v d s1 with _ | rd
      · rw [had] at h
        cases h
      · rw [had] at h
        simp only [] at h
        cases hok : rd.ok with
        | false =>
          simp only [hok, Bool.false_eq_true, if_false] at h
          injection h with h
          subst h
          exact Or.inl rfl
        | true =>
          simp only [hok, if_true] at h
          cases hcast : isDMLNode rd.ret with
          | false =>
            simp only [hcast, Bool.false_eq_true, if_false] at h
            cases h
          | true =>
            simp only [hcast, if_true] at h
            rcases hl : v.leave rd.st (Node.explainStmt rd.ret) with ⟨s2, m, b2⟩
            simp only [hl] at h
            injection h with h
            subst h
            exact Or.inr ⟨rd.st, VEvent.enter (Node.explainStmt d) :: rd.trace, by simp, hl⟩
  | prepareStmt inP nm i d =>
    simp only [accept] at h
    rcases hv : v.enter s (Node.prepareStmt inP nm i d) with ⟨s1, b⟩
    rw [hv] at h
    cases b with
    | false =>
      simp only [] at h
      injection h with h
      subst h
      exact Or.inl rfl
    | true =>
      simp only [] at h
      rcases had : accept v d s1 with _ | rd
      · rw [had] at h
        cases h
      · rw [had] at h
        simp only [] at h
        cases hok : rd.ok with
        | false =>
          simp only [hok, Bool.false_eq_true, if_false] at h
          injection h with h
          subst h
          exact Or.inl rfl
        | true =>
          simp only [hok, if_true] at h
          rcases hl : v.leave rd.st (Node.prepareStmt inP nm i rd.ret) with ⟨s2, m, b2⟩
          simp only [hl] at h
          injection h with h
          subst h
          exact Or.inr ⟨rd.st, VEvent.enter (Node.prepareStmt inP nm i d) :: rd.trace, by simp, hl⟩
  | variableAssignment nm d isG isS =>
    simp only [accept] at h
    rcases hv : v.enter s (Node.variableAssignment nm d isG isS) with ⟨s1, b⟩
    rw [hv] at h
    cases b with
    | false =>
      simp only [] at h
      injection h with h
      subst h
      exact Or.inl rfl
    | true =>
      simp only [] at h
      rcases had : accept v d s1 with _ | rd
      · rw [had] at h
        cases h
      · rw [had] at h
        simp only [] at h
        cases hok : rd.ok with
        | false =>
          simp only [hok, Bool.false_eq_true, if_false] at h
          injection h with h
          subst h
          exact Or.inl rfl
        | true =>
          simp only [hok, if_true] at h
          cases hcast : isExprNode rd.ret with
          | false =>
            simp only [hcast, Bool.false_eq_true, if_false] at h
            cases h
          | true =>
            simp only [hcast, if_true] at h
            rcases hl : v.leave rd.st (Node.variableAssignment nm rd.ret isG isS) with ⟨s2, m, b2⟩
            simp only [hl] at h
            injection h with h
            subst h
            exact Or.inr ⟨rd.st, VEvent.enter (Node.variableAssignment nm d isG isS) :: rd.trace, by simp, hl⟩
  | executeStmt nm i vs =>
    simp only [accept] at h
    rcases hv : v.enter s (Node.executeStmt nm i vs) with ⟨s1, b⟩
    rw [hv] at h
    cases b with
    | false =>
      simp only [] at h
      injection h with h
      subst h
      exact Or.inl rfl
    | true =>
      simp only [] at h
      rcases hcl : acceptChildList v isExprNode vs s1 with _ | l
      · rw [hcl] at h
        cases h
      · rw [hcl] at h
        simp only [] at h
        cases hok : l.ok with
        | false =>
          simp only [hok, Bool.false_eq_true, if_false] at h
          injection h with h
          subst h
          exact Or.inl rfl
        | true =>
          simp only [hok, if_true] at h
          rcases hl : v.leave l.st (Node.executeStmt nm i l.nodes) with ⟨s2, m, b2⟩
          simp only [hl] at h
          injection h with h
          subst h
          exact Or.inr ⟨l.st, VEvent.enter (Node.executeStmt nm i vs) :: l.trace, by simp, hl⟩
  | setStmt vs =>
    simp only [accept] at h
    rcases hv : v.enter s (Node.setStmt vs) with ⟨s1, b⟩
    rw [hv] at h
    cases b with
    | false =>
      simp only [] at h
      injection h with h
      subst h
      exact Or.inl rfl
    | true =>
      simp only [] at h
      rcases hcl : acceptChildList v isVariableAssignment vs s1 with _ | l
      · rw [hcl] at h
        cases h
      · rw [hcl] at h
        simp only [] at h
        cases hok : l.ok with
        | false =>
          simp only [hok, Bool.false_eq_true, if_false] at h
          injection h with h
          subst h
          exact Or.inl rfl
        | true =>
          simp only [hok, if_true] at h
          rcases hl : v.leave l.st (Node.setStmt l.nodes) with ⟨s2, m, b2⟩
          simp only [hl] at h
          injection h with h
          subst h
          exact Or.inr ⟨l.st, VEvent.enter (Node.setStmt vs) :: l.trace, by simp, hl⟩
  | showStmt tgt db tb col flag fl gs pat whr =>
    simp only [accept] at h
    rcases hv : v.enter s (Node.showStmt tgt db tb col flag fl gs pat whr) with ⟨s1, b⟩
    rw [hv] at h
    cases b with
    | false =>
      simp only [] at h
      injection h with h
      subst h
      exact Or.inl rfl
    | true =>
      simp only [] at h
      rcases ho1 : acceptOptChild v isTableRef tb s1 with _ | o1
      · rw [ho1] at h
        cases h
      · rw [ho1] at h
        simp only [] at h
        cases h1ok : o1.ok with
        | false =>
          simp only [h1ok, Bool.false_eq_true, if_false] at h
          injection h with h
          subst h
          exact Or.inl rfl
        | true =>
          simp only [h1ok, if_true] at h
          rcases ho2 : acceptOptChild v isColumnRefExpr col o1.st with _ | o2
          · rw [ho2] at h
            cases h
          · rw [ho2] at h
            simp only [] at h
            cases h2ok : o2.ok with
            | false =>
              simp only [h2ok, Bool.false_eq_true, if_false] at h
              injection h with h
              subst h
              exact Or.inl rfl
            | true =>
              simp only [h2ok, if_true] at h
              rcases ho3 : acceptOptChild v isPatternLikeExpr pat o2.st with _ | o3
              · rw [ho3] at h
                cases h
              · rw [ho3] at h
                simp only [] at h
                cases h3ok : o3.ok with
                | false =>
                  simp only [h3ok, Bool.false_eq_true, if_false] at h
                  injection h with h
                  subst h
                  exact Or.inl rfl
                | true =>
                  simp only [h3ok, if_true] at h
                  rcases ho4 : acceptOptChild v isExprNode whr o3.st with _ | o4
                  · rw [ho4] at h
                    cases h
                  · rw [ho4] at h
                    simp only [] at h
                    cases h4ok : o4.ok with
                    | false =>
                      simp only [h4ok, Bool.false_eq_true, if_false] at h
                      injection h with h
                      subst h
                      exact Or.inl rfl
                    | true =>
                      simp only [h4ok, if_true] at h
                      rcases hl : v.leave o4.st (Node.showStmt tgt db o1.child o2.child flag fl gs o3.child o4.child) with ⟨s2, m, b2⟩
                      simp only [hl] at h
                      injection h with h
                      subst h
                      exact Or.inr ⟨o4.st,
                        VEvent.enter (Node.showStmt tgt db tb col flag fl gs pat whr) ::
                          (o1.trace ++ o2.trace ++ o3.trace ++ o4.trace), by simp, hl⟩

/-- The shared childless `Accept` body calls `Enter` on its node first,
and calls `Enter` on nothing else. -/
theorem stdEnterLeave_trace {σ : Type} (v : Visitor σ) (n : Node) (s : σ)
    (r : AResult σ) (h : stdEnterLeave v n s = some r) :
    ∃ t, r.trace = VEvent.enter n :: t ∧ ∀ m : Node, VEvent.enter m ∈ t → False := by
  unfold stdEnterLeave at h
  rcases hv : v.enter s n with ⟨s1, b⟩
  rw [hv] at h
  cases b with
  | false =>
    simp only [] at h
    injection h with h
    subst h
    exact ⟨[], rfl, by simp⟩
  | true =>
    rcases hl : v.leave s1 n with ⟨s2, m, b2⟩
    simp only [hl] at h
    injection h with h
    subst h
    exact ⟨[VEvent.leave n], rfl, by simp⟩

/-- From the head/tail bound of a full child traversal, every `Enter`
event of the child's trace is on a node no bigger than the child. -/
theorem enters_le_of_head {x : Node} {tr : List (VEvent Node)}
    (hx : ∃ t, tr = VEvent.enter x :: t ∧ ∀ m : Node, VEvent.enter m ∈ t → sizeOf m < sizeOf x) :
    ∀ m : Node, VEvent.enter m ∈ tr → sizeOf m ≤ sizeOf x := by
  obtain ⟨t, htr, hb⟩ := hx
  intro m hm
  rw [htr, List.mem_cons] at hm
  rcases hm with hm | hm
  · injection hm with hm
    subst hm
    exact le_rfl
  · exact le_of_lt (hb m hm)

/-- Every `Enter` event recorded by the child-sequence loop is on a node
bounded by some element of the sequence. -/
theorem acceptChildList_trace {σ : Type} (v : Visitor σ) (ck : Node → Bool) :
    ∀ (xs : List Node) (s : σ) (l : LResult σ),
      (∀ x ∈ xs, ∀ (s' : σ) (r' : AResult σ), accept v x s' = some r' →
        ∀ m : Node, VEvent.enter m ∈ r'.trace → sizeOf m ≤ sizeOf x) →
      acceptChildList v ck xs s = some l →
      ∀ m : Node, VEvent.enter m ∈ l.trace → ∃ x ∈ xs, sizeOf m ≤ sizeOf x := by
  intro xs
  induction xs with
  | nil =>
    intro s l _ h m hm
    simp only [acceptChildList] at h
    injection h with h
    subst h
    cases hm
  | cons x xs ihx =>
    intro s l hih h m hm
    simp only [acceptChildList] at h
    rcases hax : accept v x s with _ | r0
    · rw [hax] at h
      cases h
    · rw [hax] at h
      simp only [] at h
      cases hro0 : r0.ok with
      | false =>
        simp only [hro0, Bool.false_eq_true, if_false] at h
        injection h with h
        subst h
        exact ⟨x, List.mem_cons_self x xs,
          hih x (List.mem_cons_self x xs) s r0 hax m hm⟩
      | true =>
        simp only [hro0, if_true] at h
        cases hcast : ck r0.ret with
        | false =>
          simp only [hcast, Bool.false_eq_true, if_false] at h
          cases h
        | true =>
          simp only [hcast, if_true] at h
          rcases hcl : acceptChildList v ck xs r0.st with _ | l1
          · rw [hcl] at h
            cases h
          · rw [hcl] at h
            simp only [] at h
            injection h with h
            subst h
            simp only [List.mem_append] at hm
            rcases hm with hm | hm
            · exact ⟨x, List.mem_cons_self x xs,
                hih x (List.mem_cons_self x xs) s r0 hax m hm⟩
            · obtain ⟨y, hy, hmy⟩ := ihx r0.st l1
                (fun z hz => hih z (List.mem_cons_of_mem x hz)) hcl m hm
              exact ⟨y, List.mem_cons_of_mem x hy, hmy⟩

/-- Every `Enter` event recorded by an optional-child block is on a node
bounded by the present child. -/
theorem acceptOptChild_trace {σ : Type} (v : Visitor σ) (ck : Node → Bool)
    (o : Option Node) (s : σ) (q : OResult σ)
    (hih : ∀ c, o = some c → ∀ (s' : σ) (r' : AResult σ), accept v c s' = some r' →
      ∀ m : Node, VEvent.enter m ∈ r'.trace → sizeOf m ≤ sizeOf c)
    (h : acceptOptChild v ck o s = some q) :
    ∀ m : Node, VEvent.enter m ∈ q.trace → ∃ c, o = some c ∧ sizeOf m ≤ sizeOf c := by
  intro m hm
  cases o with
  | none =>
    simp only [acceptOptChild] at h
    injection h with h
    subst h
    cases hm
  | some c =>
    simp only [acceptOptChild] at h
    rcases hac : accept v c s with _ | r0
    · rw [hac] at h
      cases h
    · rw [hac] at h
      simp only [] at h
      cases hro0 : r0.ok with
      | false =>
        simp only [hro0, Bool.false_eq_true, if_false] at h
        injection h with h
        subst h
        exact ⟨c, rfl, hih c rfl s r0 hac m hm⟩
      | true =>
        simp only [hro0, if_true] at h
        cases hcast : ck r0.ret with
        | false =>
          simp only [hcast, Bool.false_eq_true, if_false] at h
          cases h
        | true =>
          simp only [hcast, if_true] at h
          injection h with h
          subst h
          exact ⟨c, rfl, hih c rfl s r0 hac m hm⟩

/-- `Accept` calls `Enter` on its node first, before any other visitor
interaction; every later `Enter` call of the traversal is on a strictly
smaller node (an original descendant), never on the node again. -/
theorem accept_enter_bound_aux {σ : Type} (v : Visitor σ) :
    ∀ (k : Nat) (n : Node), sizeOf n ≤ k → ∀ (s : σ) (r : AResult σ),
      accept v n s = some r →
      ∃ t, r.trace = VEvent.enter n :: t ∧
        ∀ m : Node, VEvent.enter m ∈ t → sizeOf m < sizeOf n := by
  intro k
  induction k with
  | zero =>
    intro n hn
    exact absurd hn (by cases n <;> simp)
  | succ k ih =>
    intro n hn s r h
    have hleaf : ∀ r' : AResult σ, stdEnterLeave v n s = some r' →
        ∃ t, r'.trace = VEvent.enter n :: t ∧
          ∀ m : Node, VEvent.enter m ∈ t → sizeOf m < sizeOf n := by
      intro r' h'
      obtain ⟨t, ht, hb⟩ := stdEnterLeave_trace v n s r' h'
      exact ⟨t, ht, fun m hm => (hb m hm).elim⟩
    cases n with
    | literal a => exact hleaf r h
    | tableRef a => exact hleaf r h
    | columnRefExpr a => exact hleaf r h
    | patternLikeExpr a => exact hleaf r h
    | dmlStmt a => exact hleaf r h
    | deallocateStmt nm i => exact hleaf r h
    | beginStmt => exact hleaf r h
    | commitStmt => exact hleaf r h
    | rollbackStmt => exact hleaf r h
    | useStmt db => exact hleaf r h
    | explainStmt d =>
      have hd : sizeOf d ≤ k := by simp at hn; omega
      have hdn : sizeOf d < sizeOf (Node.explainStmt d) := by simp
      simp only [accept] at h
      rcases hv : v.enter s (Node.explainStmt d) with ⟨s1, b⟩
      rw [hv] at h
      cases b with
      | false =>
        simp only [] at h
        injection h with h
        subst h
        exact ⟨[], rfl, by simp⟩
      | true =>
        simp only [] at h
        rcases had : accept v d s1 with _ | rd
        · rw [had] at h
          cases h
        · rw [had] at h
          simp only [] at h
          have hdt := enters_le_of_head (ih d hd s1 rd had)
          cases hok : rd.ok with
          | false =>
            simp only [hok, Bool.false_eq_true, if_false] at h
            injection h with h
            subst h
            exact ⟨rd.trace, rfl, fun m hm => lt_of_le_of_lt (hdt m hm) hdn⟩
          | true =>
            simp only [hok, if_true] at h
            cases hcast : isDMLNode rd.ret with
            | false =>
              simp only [hcast, Bool.false_eq_true, if_false] at h
              cases h
            | true =>
              simp only [hcast, if_true] at h
              rcases hl : v.leave rd.st (Node.explainStmt rd.ret) with ⟨s2, m0, b2⟩
              simp only [hl] at h
              injection h with h
              subst h
              refine ⟨rd.trace ++ [VEvent.leave (Node.explainStmt rd.ret)], by simp, ?_⟩
              intro m hm
              rw [List.mem_append] at hm
              rcases hm with hm | hm
              · exact lt_of_le_of_lt (hdt m hm) hdn
              · simp at hm
    | prepareStmt inP nm i d =>
      have hd : sizeOf d ≤ k := by simp at hn; omega
      have hdn : sizeOf d < sizeOf (Node.prepareStmt inP nm i d) := by
        simp only [Node.prepareStmt.sizeOf_spec]
        omega
      simp only [accept] at h
      rcases hv : v.enter s (Node.prepareStmt inP nm i d) with ⟨s1, b⟩
      rw [hv] at h
      cases b with
      | false =>
        simp only [] at h
        injection h with h
        subst h
        exact ⟨[], rfl, by simp⟩
      | true =>
        simp only [] at h
        rcases had : accept v d s1 with _ | rd
        · rw [had] at h
          cases h
        · rw [had] at h
          simp only [] at h
          have hdt := enters_le_of_head (ih d hd s1 rd had)
          cases hok : rd.ok with
          | false =>
            simp only [hok, Bool.false_eq_true, if_false] at h
            injection h with h
            subst h
            exact ⟨rd.trace, rfl, fun m hm => lt_of_le_of_lt (hdt m hm) hdn⟩
          | true =>
            simp only [hok, if_true] at h
            rcases hl : v.leave rd.st (Node.prepareStmt inP nm i rd.ret) with ⟨s2, m0, b2⟩
            simp only [hl] at h
            injection h with h
            subst h
            refine ⟨rd.trace ++ [VEvent.leave (Node.prepareStmt inP nm i rd.ret)], by simp, ?_⟩
            intro m hm
            rw [List.mem_append] at hm
            rcases hm with hm | hm
            · exact lt_of_le_of_lt (hdt m hm) hdn
            · simp at hm
    | variableAssignment nm d isG isS =>
      have hd : sizeOf d ≤ k := by simp at hn; omega
      have hdn : sizeOf d < sizeOf (Node.variableAssignment nm d isG isS) := by
        simp only [Node.variableAssignment.sizeOf_spec]
        omega
      simp only [accept] at h
      rcases hv : v.enter s (Node.variableAssignment nm d isG isS) with ⟨s1, b⟩
      rw [hv] at h
      cases b with
      | false =>
        simp only [] at h
        injection h with h
        subst h
        exact ⟨[], rfl, by simp⟩
      | true =>
        simp only [] at h
        rcases had : accept v d s1 with _ | rd
        · rw [had] at h
          cases h
        · rw [had] at h
          simp only [] at h
          have hdt := enters_le_of_head (ih d hd s1 rd had)
          cases hok : rd.ok with
          | false =>
            simp only [hok, Bool.false_eq_true, if_false] at h
            injection h with h
            subst h
            exact ⟨rd.trace, rfl, fun m hm => lt_of_le_of_lt (hdt m hm) hdn⟩
          | true =>
            simp only [hok, if_true] at h
            cases hcast : isExprNode rd.ret with
            | false =>
              simp only [hcast, Bool.false_eq_true, if_false] at h
              cases h
            | true =>
              simp only [hcast, if_true] at h
              rcases hl : v.leave rd.st (Node.variableAssignment nm rd.ret isG isS) with ⟨s2, m0, b2⟩
              simp only [hl] at h
              injection h with h
              subst h
              refine ⟨rd.trace ++ [VEvent.leave (Node.variableAssignment nm rd.ret isG isS)], by simp, ?_⟩
              intro m hm
              rw [List.mem_append] at hm
              rcases hm with hm | hm
              · exact lt_of_le_of_lt (hdt m hm) hdn
              · simp at hm
    | executeStmt nm i vs =>
      have hvs : ∀ x ∈ vs, sizeOf x ≤ k := by
        intro x hx
        have h2 := List.sizeOf_lt_of_mem hx
        simp at hn
        omega
      have hvn : ∀ x ∈ vs, sizeOf x < sizeOf (Node.executeStmt nm i vs) := by
        intro x hx
        have h2 := List.sizeOf_lt_of_mem hx
        simp only [Node.executeStmt.sizeOf_spec]
        omega
      simp only [accept] at h
      rcases hv : v.enter s (Node.executeStmt nm i vs) with ⟨s1, b⟩
      rw [hv] at h
      cases b with
      | false =>
        simp only [] at h
        injection h with h
        subst h
        exact ⟨[], rfl, by simp⟩
      | true =>
        simp only [] at h
        rcases hcl : acceptChildList v isExprNode vs s1 with _ | l
        · rw [hcl] at h
          cases h
        · rw [hcl] at h
          simp only [] at h
          have hmem : ∀ m : Node, VEvent.enter m ∈ l.trace →
              sizeOf m < sizeOf (Node.executeStmt nm i vs) := by
            intro m hm
            obtain ⟨x, hx, hmx⟩ := acceptChildList_trace v isExprNode vs s1 l
              (fun x hx s' r' h' => enters_le_of_head (ih x (hvs x hx) s' r' h')) hcl m hm
            exact lt_of_le_of_lt hmx (hvn x hx)
          cases hok : l.ok with
          | false =>
            simp only [hok, Bool.false_eq_true, if_false] at h
            injection h with h
            subst h
            exact ⟨l.trace, rfl, hmem⟩
          | true =>
            simp only [hok, if_true] at h
            rcases hl : v.leave l.st (Node.executeStmt nm i l.nodes) with ⟨s2, m0, b2⟩
            simp only [hl] at h
            injection h with h
            subst h
            refine ⟨l.trace ++ [VEvent.leave (Node.executeStmt nm i l.nodes)], by simp, ?_⟩
            intro m hm
            rw [List.mem_append] at hm
            rcases hm with hm | hm
            · exact hmem m hm
            · simp at hm
    | setStmt vs =>
      have hvs : ∀ x ∈ vs, sizeOf x ≤ k := by
        intro x hx
        have h2 := List.sizeOf_lt_of_mem hx
        simp at hn
        omega
      have hvn : ∀ x ∈ vs, sizeOf x < sizeOf (Node.setStmt vs) := by
        intro x hx
        have h2 := List.sizeOf_lt_of_mem hx
        simp only [Node.setStmt.sizeOf_spec]
        omega
      simp only [accept] at h
      rcases hv : v.enter s (Node.setStmt vs) with ⟨s1, b⟩
      rw [hv] at h
      cases b with
      | false =>
        simp only [] at h
        injection h with h
        subst h
        exact ⟨[], rfl, by simp⟩
      | true =>
        simp only [] at h
        rcases hcl : acceptChildList v isVariableAssignment vs s1 with _ | l
        · rw [hcl] at h
          cases h
        · rw [hcl] at h
          simp only [] at h
          have hmem : ∀ m : Node, VEvent.enter m ∈ l.trace →
              sizeOf m < sizeOf (Node.setStmt vs) := by
            intro m hm
            obtain ⟨x, hx, hmx⟩ := acceptChildList_trace v isVariableAssignment vs s1 l
              (fun x hx s' r' h' => enters_le_of_head (ih x (hvs x hx) s' r' h')) hcl m hm
            exact lt_of_le_of_lt hmx (hvn x hx)
          cases hok : l.ok with
          | false =>
            simp only [hok, Bool.false_eq_true, if_false] at h
            injection h with h
            subst h
            exact ⟨l.trace, rfl, hmem⟩
          | true =>
            simp only [hok, if_true] at h
            rcases hl : v.leave l.st (Node.setStmt l.nodes) with ⟨s2, m0, b2⟩
            simp only [hl] at h
            injection h with h
            subst h
            refine ⟨l.trace ++ [VEvent.leave (Node.setStmt l.nodes)], by simp, ?_⟩
            intro m hm
            rw [List.mem_append] at hm
            rcases hm with hm | hm
            · exact hmem m hm
            · simp at hm
    | showStmt tgt db tb col flag fl gs pat whr =>
      have hsz : ∀ (o : Option Node), (o = tb ∨ o = col ∨ o = pat ∨ o = whr) →
          ∀ c, o = some c → sizeOf c ≤ k := by
        intro o ho c hc
        subst hc
        simp at hn
        rcases ho with h' | h' | h' | h' <;> rw [← h'] at hn <;> simp at hn <;> omega
      have hbig : ∀ (o : Option Node), (o = tb ∨ o = col ∨ o = pat ∨ o = whr) →
          ∀ c, o = some c → ∀ m : Node, sizeOf m ≤ sizeOf c →
            sizeOf m < sizeOf (Node.showStmt tgt db tb col flag fl gs pat whr) := by
        intro o ho c hc m hmc
        have h1 : sizeOf o = 1 + sizeOf c := by rw [hc]; simp
        simp only [Node.showStmt.sizeOf_spec]
        rcases ho with h' | h' | h' | h' <;> rw [← h'] <;> omega
      simp only [accept] at h
      rcases hv : v.enter s (Node.showStmt tgt db tb col flag fl gs pat whr) with ⟨s1, b⟩
      rw [hv] at h
      cases b with
      | false =>
        simp only [] at h
        injection h with h
        subst h
        exact ⟨[], rfl, by simp⟩
      | true =>
        simp only [] at h
        rcases ho1 : acceptOptChild v isTableRef tb s1 with _ | o1
        · rw [ho1] at h
          cases h
        · rw [ho1] at h
          simp only [] at h
          have hm1 : ∀ m : Node, VEvent.enter m ∈ o1.trace →
              sizeOf m < sizeOf (Node.showStmt tgt db tb col flag fl gs pat whr) := by
            intro m hm
            obtain ⟨c, hc, hmc⟩ := acceptOptChild_trace v isTableRef tb s1 o1
              (fun c hc s' r' h' =>
                enters_le_of_head (ih c (hsz tb (Or.inl rfl) c hc) s' r' h')) ho1 m hm
            exact hbig tb (Or.inl rfl) c hc m hmc
          cases h1ok : o1.ok with
          | false =>
            simp only [h1ok, Bool.false_eq_true, if_false] at h
            injection h with h
            subst h
            exact ⟨o1.trace, rfl, hm1⟩
          | true =>
            simp only [h1ok, if_true] at h
            rcases ho2 : acceptOptChild v isColumnRefExpr col o1.st with _ | o2
            · rw [ho2] at h
              cases h
            · rw [ho2] at h
              simp only [] at h
              have hm2 : ∀ m : Node, VEvent.enter m ∈ o2.trace →
                  sizeOf m < sizeOf (Node.showStmt tgt db tb col flag fl gs pat whr) := by
                intro m hm
                obtain ⟨c, hc, hmc⟩ := acceptOptChild_trace v isColumnRefExpr col o1.st o2
                  (fun c hc s' r' h' =>
                    enters_le_of_head (ih c (hsz col (Or.inr (Or.inl rfl)) c hc) s' r' h')) ho2 m hm
                exact hbig col (Or.inr (Or.inl rfl)) c hc m hmc
              cases h2ok : o2.ok with
              | false =>
                simp only [h2ok, Bool.false_eq_true, if_false] at h
                injection h with h
                subst h
                refine ⟨o1.trace ++ o2.trace, rfl, ?_⟩
                intro m hm
                rw [List.mem_append] at hm
                rcases hm with hm | hm
                · exact hm1 m hm
                · exact hm2 m hm
              | true =>
                simp only [h2ok, if_true] at h
                rcases ho3 : acceptOptChild v isPatternLikeExpr pat o2.st with _ | o3
                · rw [ho3] at h
                  cases h
                · rw [ho3] at h
                  simp only [] at h
                  have hm3 : ∀ m : Node, VEvent.enter m ∈ o3.trace →
                      sizeOf m < sizeOf (Node.showStmt tgt db tb col flag fl gs pat whr) := by
                    intro m hm
                    obtain ⟨c, hc, hmc⟩ := acceptOptChild_trace v isPatternLikeExpr pat o2.st o3
                      (fun c hc s' r' h' =>
                        enters_le_of_head (ih c (hsz pat (Or.inr (Or.inr (Or.inl rfl))) c hc) s' r' h')) ho3 m hm
                    exact hbig pat (Or.inr (Or.inr (Or.inl rfl))) c hc m hmc
                  cases h3ok : o3.ok with
                  | false =>
                    simp only [h3ok, Bool.false_eq_true, if_false] at h
                    injection h with h
                    subst h
                    refine ⟨o1.trace ++ o2.trace ++ o3.trace, rfl, ?_⟩
                    intro m hm
                    rw [List.mem_append, List.mem_append] at hm
                    rcases hm with (hm | hm) | hm
                    · exact hm1 m hm
                    · exact hm2 m hm
                    · exact hm3 m hm
                  | true =>
                    simp only [h3ok, if_true] at h
                    rcases ho4 : acceptOptChild v isExprNode whr o3.st with _ | o4
                    · rw [ho4] at h
                      cases h
                    · rw [ho4] at h
                      simp only [] at h
                      have hm4 : ∀ m : Node, VEvent.enter m ∈ o4.trace →
                          sizeOf m < sizeOf (Node.showStmt tgt db tb col flag fl gs pat whr) := by
                        intro m hm
                        obtain ⟨c, hc, hmc⟩ := acceptOptChild_trace v isExprNode whr o3.st o4
                          (fun c hc s' r' h' =>
                            enters_le_of_head (ih c (hsz whr (Or.inr (Or.inr (Or.inr rfl))) c hc) s' r' h')) ho4 m hm
                        exact hbig whr (Or.inr (Or.inr (Or.inr rfl))) c hc m hmc
                      cases h4ok : o4.ok with
                      | false =>
                        simp only [h4ok, Bool.false_eq_true, if_false] at h
                        injection h with h
                        subst h
                        refine ⟨o1.trace ++ o2.trace ++ o3.trace ++ o4.trace, rfl, ?_⟩
                        intro m hm
                        rw [List.mem_append, List.mem_append, List.mem_append] at hm
                        rcases hm with ((hm | hm) | hm) | hm
                        · exact hm1 m hm
                        · exact hm2 m hm
                        · exact hm3 m hm
                        · exact hm4 m hm
                      | true =>
                        simp only [h4ok, if_true] at h
                        rcases hl : v.leave o4.st (Node.showStmt tgt db o1.child o2.child flag fl gs o3.child o4.child) with ⟨s2, m0, b2⟩
                        simp only [hl] at h
                        injection h with h
                        subst h
                        refine ⟨(o1.trace ++ o2.trace ++ o3.trace ++ o4.trace) ++
                          [VEvent.leave (Node.showStmt tgt db o1.child o2.child flag fl gs o3.child o4.child)], by simp, ?_⟩
                        intro m hm
                        rw [List.mem_append, List.mem_append, List.mem_append, List.mem_append] at hm
                        rcases hm with (((hm | hm) | hm) | hm) | hm
                        · exact hm1 m hm
                        · exact hm2 m hm
                        · exact hm3 m hm
                        · exact hm4 m hm
                        · simp at hm

/-!
## Concrete visitors and nodes used by the claim witnesses
-/

/-- A visitor that refuses every node already at `Enter`. -/
def denyVisitor : Visitor Unit where
  enter := fun s _ => (s, false)
  leave := fun s n => (s, n, true)

/-- A visitor that rewrites `Literal 1` to `Literal 99` in `Leave` and
aborts (`Enter` returns false) on `Literal 2`. -/
def cexVisitor : Visitor Unit where
  enter := fun s n => (s, match n with | Node.literal 2 => false | _ => true)
  leave := fun s n => (s, (match n with | Node.literal 1 => Node.literal 99 | _ => n), true)

/-- The end-to-end visitor of the spec's scenario: rewrites every
`Literal(n)` to `Literal(n*10)` in `Leave`, never aborts. -/
def tenVisitor : Visitor Unit where
  enter := fun s _ => (s, true)
  leave := fun s n => (s, (match n with | Node.literal k => Node.literal (k * 10) | _ => n), true)

/-- An `ExecuteStmt` with three `usingParams`. -/
def cexInput : Node := Node.executeStmt "s" 0 [Node.literal 1, Node.literal 2, Node.literal 3]

/-- `cexInput` after `cexVisitor`'s committed partial rewrite. -/
def cexOutput : Node := Node.executeStmt "s" 0 [Node.literal 99, Node.literal 2, Node.literal 3]

/-- A `ShowStmt` with a table, a where-clause, and no column/pattern. -/
def demoNode : Node :=
  Node.showStmt 0 "db" (some (Node.tableRef 1)) none 0 false false none (some (Node.literal 5))

/-- The spec scenario's input `SetStmt`. -/
def endToEndInput : Node :=
  Node.setStmt [Node.variableAssignment "x" (Node.literal 1) false false,
    Node.variableAssignment "y" (Node.literal 2) true false]

/-- The spec scenario's expected output `SetStmt`. -/
def endToEndOutput : Node :=
  Node.setStmt [Node.variableAssignment "x" (Node.literal 10) false false,
    Node.variableAssignment "y" (Node.literal 20) true false]

/-!
## The claims
-/

/-- C1 (counterexample): a visitor that aborts on the second of three
`usingParams` after having replaced the first one in `Leave` makes
`ExecuteStmt.Accept` return `false` together with a statement that is
NOT deep-equal to the pre-traversal input: the first parameter's
replacement was already committed into the slice.  The second conjunct
checks that the abort did originate from the second parameter's
traversal returning false. -/
theorem abort_counterexample :
    (accept cexVisitor cexInput ()).map (fun r => (r.ret, r.ok)) = some (cexOutput, false) ∧
    (accept cexVisitor (Node.literal 2) ()).map (fun r => r.ok) = some false ∧
    cexOutput ≠ cexInput := by
  refine ⟨rfl, rfl, ?_⟩
  simp [cexOutput, cexInput]

/-- C2: for every node variant, a visitor whose `Enter` always returns
true and whose `Leave` always returns `(self, true)` (whatever it does
to its own state) visits every declared child exactly once, in the
documented order — the trace equals `idTrace`, which lists the children
in the documented field order — returns the tree unchanged (both the
receiver and the returned node equal the input) and reports success. -/
theorem traversal_completeness {σ : Type} (v : Visitor σ)
    (hE : ∀ s n, (v.enter s n).2 = true)
    (hL : ∀ s n, (v.leave s n).2 = (n, true))
    (n : Node) (s : σ) (hwt : wellTyped n = true) :
    accept v n s = some ⟨runState v s (idTrace n), n, n, true, idTrace n⟩ :=
  accept_id v hE hL n s hwt

theorem traversal_completeness_witness :
    wellTyped demoNode = true ∧
    accept idVisitor demoNode () =
      some ⟨runState idVisitor () (idTrace demoNode), demoNode, demoNode, true, idTrace demoNode⟩ :=
  ⟨rfl, traversal_completeness idVisitor (fun _ _ => rfl) (fun _ _ => rfl) demoNode () rfl⟩

/-- C4: if the visitor's `Enter` returns false on the node itself,
`Accept` returns `(self, false)` with the node unchanged; the trace
`[Enter n]` shows that no child was visited and `Leave` was not called,
and `recv = n` shows no field was mutated. -/
theorem enter_false_unchanged {σ : Type} (v : Visitor σ) (n : Node) (s s1 : σ)
    (h : v.enter s n = (s1, false)) :
    accept v n s = some ⟨s1, n, n, false, [VEvent.enter n]⟩ :=
  accept_enter_false v n s s1 h

theorem enter_false_unchanged_witness :
    accept denyVisitor endToEndInput () =
      some ⟨(), endToEndInput, endToEndInput, false, [VEvent.enter endToEndInput]⟩ :=
  enter_false_unchanged denyVisitor endToEndInput () () rfl

/-- C7: rewriting every `Literal(n)` to `Literal(n*10)` in `Leave` over
`SetStmt{ [ {x, Literal 1, local}, {y, Literal 2, global} ] }` yields
`SetStmt{ [ {x, Literal 10, local}, {y, Literal 20, global} ] }` with
all other assignment fields preserved and success flag true. -/
theorem setstmt_end_to_end :
    (accept tenVisitor endToEndInput ()).map (fun r => (r.ret, r.ok)) =
      some (endToEndOutput, true) := rfl

/-- C8: running the identity pass twice yields the same tree as running
it once (both equal the input tree). -/
theorem identity_pass_idempotent {σ : Type} (v : Visitor σ)
    (hE : ∀ s n, (v.enter s n).2 = true)
    (hL : ∀ s n, (v.leave s n).2 = (n, true))
    (n : Node) (s : σ) (hwt : wellTyped n = true) :
    ((accept v n s).bind (fun r => accept v r.ret r.st)).map (fun r => r.ret) =
      (accept v n s).map (fun r => r.ret) := by
  have h1 := accept_id v hE hL n s hwt
  have h2 := accept_id v hE hL n (runState v s (idTrace n)) hwt
  rw [h1]
  simp [h2]

theorem identity_pass_idempotent_witness :
    ((accept idVisitor demoNode ()).bind (fun r => accept idVisitor r.ret r.st)).map (fun r => r.ret) =
      (accept idVisitor demoNode ()).map (fun r => r.ret) :=
  identity_pass_idempotent idVisitor (fun _ _ => rfl) (fun _ _ => rfl) demoNode () rfl

/-- C9: whenever `Accept` aborts out of `Enter` on the node or out of a
failed child traversal, the returned node is the receiver itself
(`ret = recv`); the only other way a node is surfaced is as the result
of the single `Leave` call on the receiver, made after all children
succeeded — in which case `Leave` is the traversal's last visitor call
and its entire result (node, state, flag) is returned verbatim. -/
theorem abort_returns_receiver {σ : Type} (v : Visitor σ) (n : Node) (s : σ)
    (r : AResult σ) (h : accept v n s = some r) :
    r.ret = r.recv ∨
      ∃ s1 t, r.trace = t ++ [VEvent.leave r.recv] ∧
        v.leave s1 r.recv = (r.st, r.ret, r.ok) :=
  accept_return_path v n s r h

/-- The result of `denyVisitor` on `cexInput`: an immediate abort. -/
def denyRes : AResult Unit := ⟨(), cexInput, cexInput, false, [VEvent.enter cexInput]⟩

theorem abort_returns_receiver_witness :
    denyRes.ret = denyRes.recv ∨
      ∃ s1 t, denyRes.trace = t ++ [VEvent.leave denyRes.recv] ∧
        denyVisitor.leave s1 denyRes.recv = (denyRes.st, denyRes.ret, denyRes.ok) :=
  abort_returns_receiver denyVisitor cexInput () denyRes rfl

/-- An `ExprNode` is an opaque collaborator leaf, so its full traversal
is exactly one `Enter` and one `Leave`. -/
theorem idTrace_expr (w : Node) (hw : isExprNode w = true) :
    idTrace w = [VEvent.enter w, VEvent.leave w] := by
  cases w <;> simp [isExprNode] at hw <;> rfl

/-- C5: a `ShowStmt` whose `Table`, `Column` and `Pattern` fields are
absent and whose `Where` field holds an expression is traversed by a
non-aborting visitor so that exactly one expression child is entered
(the where-clause), and the absent fields contribute no `Enter`/`Leave`
calls at all: the full trace is precisely the statement's own
`Enter`/`Leave` pair around the where-clause's. -/
theorem optional_children_skipped {σ : Type} (v : Visitor σ)
    (hE : ∀ s n, (v.enter s n).2 = true)
    (hL : ∀ s n, (v.leave s n).2 = (n, true))
    (tgt : Int) (db : String) (flag : Int) (fl gs : Bool) (w : Node) (s : σ)
    (hw : isExprNode w = true) (hwt : wellTyped w = true) :
    accept v (Node.showStmt tgt db none none flag fl gs none (some w)) s =
      some ⟨runState v s (idTrace (Node.showStmt tgt db none none flag fl gs none (some w))),
        Node.showStmt tgt db none none flag fl gs none (some w),
        Node.showStmt tgt db none none flag fl gs none (some w), true,
        idTrace (Node.showStmt tgt db none none flag fl gs none (some w))⟩ ∧
    idTrace (Node.showStmt tgt db none none flag fl gs none (some w)) =
      [VEvent.enter (Node.showStmt tgt db none none flag fl gs none (some w)),
        VEvent.enter w, VEvent.leave w,
        VEvent.leave (Node.showStmt tgt db none none flag fl gs none (some w))] ∧
    List.countP isExprEnter
      (idTrace (Node.showStmt tgt db none none flag fl gs none (some w))) = 1 := by
  have hwt2 : wellTyped (Node.showStmt tgt db none none flag fl gs none (some w)) = true := by
    simp only [wellTyped, wtOpt]
    rw [hw, hwt]
    simp
  have htr : idTrace (Node.showStmt tgt db none none flag fl gs none (some w)) =
      [VEvent.enter (Node.showStmt tgt db none none flag fl gs none (some w)),
        VEvent.enter w, VEvent.leave w,
        VEvent.leave (Node.showStmt tgt db none none flag fl gs none (some w))] := by
    simp [idTrace, optTrace, idTrace_expr w hw]
  refine ⟨accept_id v hE hL _ s hwt2, htr, ?_⟩
  rw [htr]
  have hss : isExprNode (Node.showStmt tgt db none none flag fl gs none (some w)) = false := rfl
  simp [isExprEnter, List.countP_cons, hw, hss]

theorem optional_children_skipped_witness :
    (accept idVisitor (Node.showStmt 0 "db" none none 0 false false none (some (Node.literal 5))) () =
      some ⟨runState idVisitor () (idTrace (Node.showStmt 0 "db" none none 0 false false none (some (Node.literal 5)))),
        Node.showStmt 0 "db" none none 0 false false none (some (Node.literal 5)),
        Node.showStmt 0 "db" none none 0 false false none (some (Node.literal 5)), true,
        idTrace (Node.showStmt 0 "db" none none 0 false false none (some (Node.literal 5)))⟩) ∧
    idTrace (Node.showStmt 0 "db" none none 0 false false none (some (Node.literal 5))) =
      [VEvent.enter (Node.showStmt 0 "db" none none 0 false false none (some (Node.literal 5))),
        VEvent.enter (Node.literal 5), VEvent.leave (Node.literal 5),
        VEvent.leave (Node.showStmt 0 "db" none none 0 false false none (some (Node.literal 5)))] ∧
    List.countP isExprEnter
      (idTrace (Node.showStmt 0 "db" none none 0 false false none (some (Node.literal 5)))) = 1 :=
  optional_children_skipped idVisitor (fun _ _ => rfl) (fun _ _ => rfl)
    0 "db" 0 false false (Node.literal 5) () rfl rfl

/-- C6: a visitor whose `Leave` on a child returns a different but
capability-compatible node with `true` makes the parent's field hold the
new node after the full successful traversal, while every sibling field
of the parent is unchanged — shown for `ExplainStmt` (its `Stmt` field)
and for `VariableAssignment` (its `Value` field, with `Name`,
`IsGlobal`, `IsSystem` preserved). -/
theorem replacement_propagates {σ : Type} (v : Visitor σ) :
    (∀ (s s1 : σ) (d : Node) (r : AResult σ),
      v.enter s (Node.explainStmt d) = (s1, true) →
      accept v d s1 = some r → r.ok = true → isDMLNode r.ret = true → r.ret ≠ d →
      accept v (Node.explainStmt d) s =
        some ⟨(v.leave r.st (Node.explainStmt r.ret)).1, Node.explainStmt r.ret,
          (v.leave r.st (Node.explainStmt r.ret)).2.1,
          (v.leave r.st (Node.explainStmt r.ret)).2.2,
          VEvent.enter (Node.explainStmt d) :: r.trace ++
            [VEvent.leave (Node.explainStmt r.ret)]⟩) ∧
    (∀ (s s1 : σ) (nm : String) (val : Node) (isG isS : Bool) (r : AResult σ),
      v.enter s (Node.variableAssignment nm val isG isS) = (s1, true) →
      accept v val s1 = some r → r.ok = true → isExprNode r.ret = true → r.ret ≠ val →
      accept v (Node.variableAssignment nm val isG isS) s =
        some ⟨(v.leave r.st (Node.variableAssignment nm r.ret isG isS)).1,
          Node.variableAssignment nm r.ret isG isS,
          (v.leave r.st (Node.variableAssignment nm r.ret isG isS)).2.1,
          (v.leave r.st (Node.variableAssignment nm r.ret isG isS)).2.2,
          VEvent.enter (Node.variableAssignment nm val isG isS) :: r.trace ++
            [VEvent.leave (Node.variableAssignment nm r.ret isG isS)]⟩) := by
  constructor
  · intro s s1 d r henter hacc hok hcast _
    rcases hl : v.leave r.st (Node.explainStmt r.ret) with ⟨s2, m, b⟩
    simp only [accept, henter, hacc, hok, hcast, if_true, hl]
  · intro s s1 nm val isG isS r henter hacc hok hcast _
    rcases hl : v.leave r.st (Node.variableAssignment nm r.ret isG isS) with ⟨s2, m, b⟩
    simp only [accept, henter, hacc, hok, hcast, if_true, hl]

/-- A visitor that rewrites the collaborator DML leaf `dmlStmt 1` to
`dmlStmt 2` in `Leave`, never aborts. -/
def dmlSwapVisitor : Visitor Unit where
  enter := fun s _ => (s, true)
  leave := fun s n => (s, (match n with | Node.dmlStmt 1 => Node.dmlStmt 2 | _ => n), true)

/-- The traversal result of `dmlSwapVisitor` on the leaf `dmlStmt 1`. -/
def dmlSwapRes : AResult Unit :=
  ⟨(), Node.dmlStmt 1, Node.dmlStmt 2, true,
    [VEvent.enter (Node.dmlStmt 1), VEvent.leave (Node.dmlStmt 1)]⟩

theorem replacement_propagates_witness :
    Node.dmlStmt 2 ≠ Node.dmlStmt 1 ∧
    accept dmlSwapVisitor (Node.explainStmt (Node.dmlStmt 1)) () =
      some ⟨(dmlSwapVisitor.leave dmlSwapRes.st (Node.explainStmt dmlSwapRes.ret)).1,
        Node.explainStmt dmlSwapRes.ret,
        (dmlSwapVisitor.leave dmlSwapRes.st (Node.explainStmt dmlSwapRes.ret)).2.1,
        (dmlSwapVisitor.leave dmlSwapRes.st (Node.explainStmt dmlSwapRes.ret)).2.2,
        VEvent.enter (Node.explainStmt (Node.dmlStmt 1)) :: dmlSwapRes.trace ++
          [VEvent.leave (Node.explainStmt dmlSwapRes.ret)]⟩ := by
  constructor
  · simp
  · exact (replacement_propagates dmlSwapVisitor).1 () () (Node.dmlStmt 1) dmlSwapRes
      rfl rfl rfl rfl (by simp [dmlSwapRes])

/-- C1 (amended): when the traversal of a `usingParams` element fails,
`ExecuteStmt.Accept` stops immediately and returns `(self, false)`:
later parameters are never visited and the failing parameter's returned
replacement is never assigned, but a replacement already committed for
an earlier parameter remains in the returned statement.  The returned
`ExecuteStmt` is deep-equal to the pre-traversal input exactly when the
earlier traversals returned their nodes unchanged (second conjunct). -/
theorem executeStmt_abort_commits_prefix {σ : Type} (v : Visitor σ)
    (s s1 : σ) (nm : String) (i : Nat) (p1 p2 p3 : Node) (r1 r2 : AResult σ)
    (henter : v.enter s (Node.executeStmt nm i [p1, p2, p3]) = (s1, true))
    (h1 : accept v p1 s1 = some r1) (h1ok : r1.ok = true)
    (h1cast : isExprNode r1.ret = true)
    (h2 : accept v p2 r1.st = some r2) (h2ok : r2.ok = false) :
    accept v (Node.executeStmt nm i [p1, p2, p3]) s =
      some ⟨r2.st, Node.executeStmt nm i [r1.ret, r2.recv, p3],
        Node.executeStmt nm i [r1.ret, r2.recv, p3], false,
        VEvent.enter (Node.executeStmt nm i [p1, p2, p3]) :: (r1.trace ++ r2.trace)⟩ ∧
    (r1.ret = p1 → r2.recv = p2 →
      Node.executeStmt nm i [r1.ret, r2.recv, p3] = Node.executeStmt nm i [p1, p2, p3]) := by
  have hpre : acceptChildList v isExprNode [p1] s1 =
      some ⟨r1.st, [r1.ret], true, r1.trace⟩ := by
    simp only [acceptChildList, h1, h1ok, h1cast, if_true]
    simp
  refine ⟨?_, fun ha hb => by rw [ha, hb]⟩
  have := executeStmt_abort v s s1 nm i [p1] p2 [p3]
    ⟨r1.st, [r1.ret], true, r1.trace⟩ r2 henter hpre rfl h2 h2ok
  simpa using this

/-- The traversal result of `cexVisitor` on the first parameter
`Literal 1`: replaced by `Literal 99`, success. -/
def cexR1 : AResult Unit :=
  ⟨(), Node.literal 1, Node.literal 99, true,
    [VEvent.enter (Node.literal 1), VEvent.leave (Node.literal 1)]⟩

/-- The traversal result of `cexVisitor` on the second parameter
`Literal 2`: refused at `Enter`. -/
def cexR2 : AResult Unit :=
  ⟨(), Node.literal 2, Node.literal 2, false, [VEvent.enter (Node.literal 2)]⟩

theorem executeStmt_abort_commits_prefix_witness :
    (accept cexVisitor (Node.executeStmt "s" 0 [Node.literal 1, Node.literal 2, Node.literal 3]) () =
      some ⟨cexR2.st, Node.executeStmt "s" 0 [cexR1.ret, cexR2.recv, Node.literal 3],
        Node.executeStmt "s" 0 [cexR1.ret, cexR2.recv, Node.literal 3], false,
        VEvent.enter (Node.executeStmt "s" 0 [Node.literal 1, Node.literal 2, Node.literal 3]) ::
          (cexR1.trace ++ cexR2.trace)⟩) ∧
    (cexR1.ret = Node.literal 1 → cexR2.recv = Node.literal 2 →
      Node.executeStmt "s" 0 [cexR1.ret, cexR2.recv, Node.literal 3] =
        Node.executeStmt "s" 0 [Node.literal 1, Node.literal 2, Node.literal 3]) :=
  executeStmt_abort_commits_prefix cexVisitor () () "s" 0
    (Node.literal 1) (Node.literal 2) (Node.literal 3) cexR1 cexR2 rfl rfl rfl rfl rfl rfl

/-- C3: when the child at sibling position k fails, no child at a
position greater than k is visited and the parent's own `Leave` is never
called, and `Accept` returns false — shown for `ExecuteStmt` (arbitrary
committed prefix `pre`, failing element `c`, untouched suffix `post`:
the trace ends with `c`'s trace, so no event of any `post` element and
no `Leave` on the statement is emitted) and for `ShowStmt` (the `Table`
child succeeds, the `Column` child fails: `Pattern` and `Where` are
never visited, no `Leave` on the statement is emitted). -/
theorem abort_short_circuits {σ : Type} (v : Visitor σ) :
    (∀ (s s1 : σ) (nm : String) (i : Nat) (pre : List Node) (c : Node)
      (post : List Node) (l : LResult σ) (r : AResult σ),
      v.enter s (Node.executeStmt nm i (pre ++ c :: post)) = (s1, true) →
      acceptChildList v isExprNode pre s1 = some l → l.ok = true →
      accept v c l.st = some r → r.ok = false →
      accept v (Node.executeStmt nm i (pre ++ c :: post)) s =
        some ⟨r.st, Node.executeStmt nm i (l.nodes ++ r.recv :: post),
          Node.executeStmt nm i (l.nodes ++ r.recv :: post), false,
          VEvent.enter (Node.executeStmt nm i (pre ++ c :: post)) :: (l.trace ++ r.trace)⟩) ∧
    (∀ (s s1 : σ) (tgt : Int) (db : String) (tbc colc : Node) (flag : Int)
      (fl gs : Bool) (pat whr : Option Node) (r1 r2 : AResult σ),
      v.enter s (Node.showStmt tgt db (some tbc) (some colc) flag fl gs pat whr) = (s1, true) →
      accept v tbc s1 = some r1 → r1.ok = true → isTableRef r1.ret = true →
      accept v colc r1.st = some r2 → r2.ok = false →
      accept v (Node.showStmt tgt db (some tbc) (some colc) flag fl gs pat whr) s =
        some ⟨r2.st, Node.showStmt tgt db (some r1.ret) (some r2.recv) flag fl gs pat whr,
          Node.showStmt tgt db (some r1.ret) (some r2.recv) flag fl gs pat whr, false,
          VEvent.enter (Node.showStmt tgt db (some tbc) (some colc) flag fl gs pat whr) ::
            (r1.trace ++ r2.trace)⟩) :=
  ⟨fun s s1 nm i pre c post l r henter hpre hok hc hro =>
      executeStmt_abort v s s1 nm i pre c post l r henter hpre hok hc hro,
    fun s s1 tgt db tbc colc flag fl gs pat whr r1 r2 henter h1 h1ok h1cast h2 h2ok =>
      showStmt_abort v s s1 tgt db tbc colc flag fl gs pat whr r1 r2 henter h1 h1ok h1cast h2 h2ok⟩

/-- A visitor that rewrites `TableRef 1` to `TableRef 7` in `Leave` and
refuses `ColumnRefExpr 2` at `Enter`. -/
def showAbortVisitor : Visitor Unit where
  enter := fun s n => (s, match n with | Node.columnRefExpr 2 => false | _ => true)
  leave := fun s n => (s, (match n with | Node.tableRef 1 => Node.tableRef 7 | _ => n), true)

/-- `showAbortVisitor`'s traversal result on `TableRef 1`. -/
def showR1 : AResult Unit :=
  ⟨(), Node.tableRef 1, Node.tableRef 7, true,
    [VEvent.enter (Node.tableRef 1), VEvent.leave (Node.tableRef 1)]⟩

/-- `showAbortVisitor`'s traversal result on `ColumnRefExpr 2`. -/
def showR2 : AResult Unit :=
  ⟨(), Node.columnRefExpr 2, Node.columnRefExpr 2, false,
    [VEvent.enter (Node.columnRefExpr 2)]⟩

theorem abort_short_circuits_witness :
    (accept cexVisitor (Node.executeStmt "s" 0 ([Node.literal 1] ++ Node.literal 2 :: [Node.literal 3])) () =
      some ⟨cexR2.st,
        Node.executeStmt "s" 0 ([Node.literal 99] ++ cexR2.recv :: [Node.literal 3]),
        Node.executeStmt "s" 0 ([Node.literal 99] ++ cexR2.recv :: [Node.literal 3]), false,
        VEvent.enter (Node.executeStmt "s" 0 ([Node.literal 1] ++ Node.literal 2 :: [Node.literal 3])) ::
          (cexR1.trace ++ cexR2.trace)⟩) ∧
    (accept showAbortVisitor
        (Node.showStmt 0 "db" (some (Node.tableRef 1)) (some (Node.columnRefExpr 2)) 0 false false none none) () =
      some ⟨showR2.st,
        Node.showStmt 0 "db" (some showR1.ret) (some showR2.recv) 0 false false none none,
        Node.showStmt 0 "db" (some showR1.ret) (some showR2.recv) 0 false false none none, false,
        VEvent.enter (Node.showStmt 0 "db" (some (Node.tableRef 1)) (some (Node.columnRefExpr 2)) 0 false false none none) ::
          (showR1.trace ++ showR2.trace)⟩) :=
  ⟨(abort_short_circuits cexVisitor).1 () () "s" 0 [Node.literal 1] (Node.literal 2)
      [Node.literal 3] ⟨(), [Node.literal 99], true, cexR1.trace⟩ cexR2 rfl rfl rfl rfl rfl,
    (abort_short_circuits showAbortVisitor).2 () () 0 "db" (Node.tableRef 1)
      (Node.columnRefExpr 2) 0 false false none none showR1 showR2 rfl rfl rfl rfl rfl rfl⟩

/-- C10: `Enter` is called on the node first, before any other visitor
interaction, and never again during the traversal (every later `Enter`
is on a different node); if `Enter` returns false the traversal consists
of that single call (`Leave` is not called and nothing is visited); on a
childless variant (`DeallocateStmt`, `BeginStmt`, `CommitStmt`,
`RollbackStmt`, `UseStmt`), an `Enter` that returns true is immediately
followed by the single `Leave`, with no visitor call in between. -/
theorem enter_leave_discipline {σ : Type} (v : Visitor σ) (n : Node) (s : σ)
    (r : AResult σ) (h : accept v n s = some r) :
    (∃ t, r.trace = VEvent.enter n :: t ∧ ∀ m : Node, VEvent.enter m ∈ t → m ≠ n) ∧
    (∀ s1, v.enter s n = (s1, false) → r = ⟨s1, n, n, false, [VEvent.enter n]⟩) ∧
    (isChildless n = true → ∀ s1, v.enter s n = (s1, true) →
      ∃ s2 m b, v.leave s1 n = (s2, m, b) ∧
        r = ⟨s2, n, m, b, [VEvent.enter n, VEvent.leave n]⟩) := by
  refine ⟨?_, ?_, ?_⟩
  · obtain ⟨t, ht, hb⟩ := accept_enter_bound_aux v (sizeOf n) n le_rfl s r h
    refine ⟨t, ht, fun m hm heq => ?_⟩
    have := hb m hm
    rw [heq] at this
    omega
  · intro s1 he
    have h2 := accept_enter_false v n s s1 he
    exact Option.some.inj (h.symm.trans h2)
  · intro hcl s1 he
    obtain ⟨s2, m, b, hl, hacc⟩ := accept_childless v n hcl s s1 he
    exact ⟨s2, m, b, hl, Option.some.inj (h.symm.trans hacc)⟩

/-- The identity traversal result on `BeginStmt`. -/
def begRes : AResult Unit :=
  ⟨(), Node.beginStmt, Node.beginStmt, true,
    [VEvent.enter Node.beginStmt, VEvent.leave Node.beginStmt]⟩

theorem enter_leave_discipline_witness :
    (∃ t, begRes.trace = VEvent.enter Node.beginStmt :: t ∧
      ∀ m : Node, VEvent.enter m ∈ t → m ≠ Node.beginStmt) ∧
    (∀ s1, idVisitor.enter () Node.beginStmt = (s1, false) →
      begRes = ⟨s1, Node.beginStmt, Node.beginStmt, false, [VEvent.enter Node.beginStmt]⟩) ∧
    (isChildless Node.beginStmt = true → ∀ s1, idVisitor.enter () Node.beginStmt = (s1, true) →
      ∃ s2 m b, idVisitor.leave s1 Node.beginStmt = (s2, m, b) ∧
        begRes = ⟨s2, Node.beginStmt, m, b,
          [VEvent.enter Node.beginStmt, VEvent.leave Node.beginStmt]⟩) :=
  enter_leave_discipline idVisitor Node.beginStmt () begRes rfl
